import Mathlib

/-!
# Verification of the processor-pipeline / external merge-sorting core

Shallow embedding of the execution core described by the repository:
Chunk/Port primitives, the `MergeSortingTransform` (accumulate, remerge,
spill, k-way stable merge, limit truncation), the pipeline executor, and the
`NumbersSource` of the test
`src/dbms/src/Processors/tests/processors_test_merge_sorting_transform.cpp`.

The implementation files of `MergeSortingTransform`, `PipelineExecutor` and
the port primitives are not part of this source tree (only their caller, the
test above, is), so those components are modelled from the specification;
`NumbersSource::generate` is translated directly from the test source.
-/

namespace ClickHouse

open List

/-- A row of a chunk, restricted to the comparable column values the sort
uses.  Values are integers (the test pipeline carries a single UInt64
column; any comparable column type embeds). -/
abbrev Row := List Int

/-- A chunk, viewed row-major: the list of its rows.  The columnar layout is
irrelevant to ordering and counting claims. -/
abbrev Chunk := List Row

/-- A sort description: ordered list of (column index, direction); direction
is `1` for ascending, `-1` for descending, mirroring the `{0, 1, 1}` entries
of the test.  Collation is omitted (plain comparable values). -/
abbrev SortDescription := List (Nat × Int)

/-- Column access within a row (missing columns read as `0`; all rows
flowing through one port have the same header, so this default is never
exercised by well-formed pipelines). -/
def getCol (r : Row) (i : Nat) : Int := r.getD i 0

/-- Three-way comparison of integers. -/
def intCmp (a b : Int) : Ordering :=
  if a < b then .lt else if b < a then .gt else .eq

/-- Modelled from the spec: direction-adjusted comparison of one sort-key
column (`direction * compareAt` of the missing comparator code): a negative
direction reverses the comparison. -/
def cmpVal (dir : Int) (a b : Int) : Ordering :=
  if dir < 0 then intCmp b a else intCmp a b

/-- Modelled from the spec: the SortDescription comparator over rows —
lexicographic over the described (column, direction) pairs.  This is the
total preorder "applied identically to every Chunk and every spilled run". -/
def cmpRow (desc : SortDescription) (a b : Row) : Ordering :=
  match desc with
  | [] => .eq
  | (i, dir) :: rest =>
    match cmpVal dir (getCol a i) (getCol b i) with
    | .eq => cmpRow rest a b
    | o => o

/-- `a` precedes-or-ties `b` under the sort description. -/
def rowLe (desc : SortDescription) (a b : Row) : Bool :=
  match cmpRow desc a b with
  | .gt => false
  | _ => true

/-- `a` and `b` have equal sort keys. -/
def keyEq (desc : SortDescription) (a b : Row) : Bool :=
  match cmpRow desc a b with
  | .eq => true
  | _ => false

/-- A row sequence is ordered when every earlier row precedes-or-ties every
later row under the description (non-decreasing, or non-increasing where the
direction is negative). -/
def RowsOrdered (desc : SortDescription) (l : List Row) : Prop :=
  List.Pairwise (fun a b => rowLe desc a b = true) l

/-! ## Order lemmas for the comparator -/

theorem intCmp_swap (a b : Int) : intCmp a b = (intCmp b a).swap := by
  unfold intCmp
  split_ifs with h1 h2 h3 <;> first | rfl | omega

theorem intCmp_eq_iff (a b : Int) : intCmp a b = .eq ↔ a = b := by
  unfold intCmp
  split_ifs with h1 h2 <;> simp <;> omega

theorem intCmp_lt_trans {a b c : Int} (h1 : intCmp a b = .lt) (h2 : intCmp b c = .lt) :
    intCmp a c = .lt := by
  unfold intCmp at h1 h2 ⊢
  split_ifs at h1 h2 ⊢ <;> simp_all <;> omega

theorem cmpVal_swap (dir : Int) (a b : Int) : cmpVal dir a b = (cmpVal dir b a).swap := by
  unfold cmpVal
  by_cases h : dir < 0
  · simp only [if_pos h]; exact intCmp_swap _ _
  · simp only [if_neg h]; exact intCmp_swap _ _

theorem cmpVal_eq_iff (dir : Int) (a b : Int) : cmpVal dir a b = .eq ↔ a = b := by
  unfold cmpVal
  by_cases h : dir < 0
  · simp only [if_pos h]; rw [intCmp_eq_iff]; exact eq_comm
  · simp only [if_neg h]; exact intCmp_eq_iff a b

theorem cmpVal_lt_trans {dir a b c : Int} (h1 : cmpVal dir a b = .lt)
    (h2 : cmpVal dir b c = .lt) : cmpVal dir a c = .lt := by
  unfold cmpVal at h1 h2 ⊢
  by_cases h : dir < 0
  · simp only [if_pos h] at h1 h2 ⊢
    exact intCmp_lt_trans h2 h1
  · simp only [if_neg h] at h1 h2 ⊢
    exact intCmp_lt_trans h1 h2

theorem cmpRow_swap (desc : SortDescription) (a b : Row) :
    cmpRow desc a b = (cmpRow desc b a).swap := by
  induction desc with
  | nil => rfl
  | cons hd tl ih =>
    obtain ⟨i, dir⟩ := hd
    simp only [cmpRow]
    rw [cmpVal_swap]
    rcases h : cmpVal dir (getCol b i) (getCol a i) with _ | _ | _
    · rfl
    · exact ih
    · rfl

/-- Key equality of the head column propagates: if the key columns of `a`
and `b` are equal then comparing either against `c` agrees. -/
theorem cmpRow_congr_left {desc : SortDescription} {a b : Row}
    (h : cmpRow desc a b = .eq) (c : Row) : cmpRow desc a c = cmpRow desc b c := by
  induction desc with
  | nil => rfl
  | cons hd tl ih =>
    obtain ⟨i, dir⟩ := hd
    simp only [cmpRow] at *
    rcases hab : cmpVal dir (getCol a i) (getCol b i) with _ | _ | _ <;> rw [hab] at h
    · exact absurd h (by simp)
    · have : getCol a i = getCol b i := (cmpVal_eq_iff _ _ _).mp hab
      rw [this]
      rcases hbc : cmpVal dir (getCol b i) (getCol c i) with _ | _ | _ <;> simp [ih h]
    · exact absurd h (by simp)

theorem cmpRow_congr_right {desc : SortDescription} {a b : Row}
    (h : cmpRow desc a b = .eq) (c : Row) : cmpRow desc c a = cmpRow desc c b := by
  have h' : cmpRow desc b a = .eq := by
    rw [cmpRow_swap] at h
    rcases h2 : cmpRow desc b a with _ | _ | _ <;> rw [h2] at h <;> simp [Ordering.swap] at h ⊢
  calc cmpRow desc c a = (cmpRow desc a c).swap := by rw [cmpRow_swap]
    _ = (cmpRow desc b c).swap := by rw [cmpRow_congr_left h c]
    _ = cmpRow desc c b := by rw [← cmpRow_swap]

theorem cmpRow_lt_trans {desc : SortDescription} {a b c : Row}
    (h1 : cmpRow desc a b = .lt) (h2 : cmpRow desc b c = .lt) :
    cmpRow desc a c = .lt := by
  induction desc with
  | nil => simp [cmpRow] at h1
  | cons hd tl ih =>
    obtain ⟨i, dir⟩ := hd
    simp only [cmpRow] at *
    rcases hab : cmpVal dir (getCol a i) (getCol b i) with _ | _ | _ <;> rw [hab] at h1
    · rcases hbc : cmpVal dir (getCol b i) (getCol c i) with _ | _ | _ <;> rw [hbc] at h2
      · rw [cmpVal_lt_trans hab hbc]
      · have : getCol b i = getCol c i := (cmpVal_eq_iff _ _ _).mp hbc
        rw [← this, hab]
      · simp at h2
    · have : getCol a i = getCol b i := (cmpVal_eq_iff _ _ _).mp hab
      rcases hbc : cmpVal dir (getCol b i) (getCol c i) with _ | _ | _ <;> rw [hbc] at h2
      · rw [this, hbc]
      · have h2' : getCol b i = getCol c i := (cmpVal_eq_iff _ _ _).mp hbc
        rw [this, h2', (cmpVal_eq_iff dir _ _).mpr rfl]
        exact ih h1 h2
      · simp at h2
    · simp at h1

/-! Derived facts about `rowLe` / `keyEq`. -/

theorem rowLe_iff {desc : SortDescription} {a b : Row} :
    rowLe desc a b = true ↔ cmpRow desc a b ≠ .gt := by
  unfold rowLe
  rcases h : cmpRow desc a b with _ | _ | _ <;> simp

theorem rowLe_total (desc : SortDescription) (a b : Row) :
    rowLe desc a b = true ∨ rowLe desc b a = true := by
  rcases h : cmpRow desc a b with _ | _ | _
  · left; rw [rowLe_iff, h]; simp
  · left; rw [rowLe_iff, h]; simp
  · right
    rw [rowLe_iff]
    rw [cmpRow_swap] at h
    rcases h2 : cmpRow desc b a with _ | _ | _ <;> rw [h2] at h <;> simp [Ordering.swap] at h ⊢

theorem rowLe_of_not_rowLe {desc : SortDescription} {a b : Row}
    (h : ¬ rowLe desc a b = true) : rowLe desc b a = true := by
  rcases rowLe_total desc a b with h' | h'
  · exact absurd h' h
  · exact h'

theorem rowLe_trans {desc : SortDescription} {a b c : Row}
    (h1 : rowLe desc a b = true) (h2 : rowLe desc b c = true) :
    rowLe desc a c = true := by
  rw [rowLe_iff] at h1 h2 ⊢
  intro hac
  rcases hab : cmpRow desc a b with _ | _ | _
  · rcases hbc : cmpRow desc b c with _ | _ | _
    · have := cmpRow_lt_trans hab hbc
      rw [this] at hac
      exact absurd hac (by simp)
    · have heq := cmpRow_congr_right hbc a
      rw [hab, hac] at heq
      exact absurd heq (by simp)
    · exact h2 hbc
  · have heq := cmpRow_congr_left hab c
    rw [hac] at heq
    exact h2 heq.symm
  · exact h1 hab

theorem keyEq_iff {desc : SortDescription} {a b : Row} :
    keyEq desc a b = true ↔ cmpRow desc a b = .eq := by
  unfold keyEq
  rcases h : cmpRow desc a b with _ | _ | _ <;> simp

theorem keyEq_symm_eq {desc : SortDescription} {a b : Row}
    (h : cmpRow desc a b = .eq) : cmpRow desc b a = .eq := by
  rw [cmpRow_swap] at h
  rcases h2 : cmpRow desc b a with _ | _ | _ <;> rw [h2] at h <;>
    simp [Ordering.swap] at h ⊢

/-- Two rows with keys both equal to a third compare equal; in particular a
strictly-greater pair cannot both match one key. -/
theorem not_keyEq_of_gt {desc : SortDescription} {k a b : Row}
    (hk : keyEq desc k b = true) (hgt : cmpRow desc a b = .gt)
    (hka : keyEq desc k a = true) : False := by
  rw [keyEq_iff] at hk hka
  have hak : cmpRow desc a k = .eq := keyEq_symm_eq hka
  have : cmpRow desc a b = cmpRow desc k b := cmpRow_congr_left hak b
  rw [hgt, hk] at this
  exact absurd this (by simp)

/-! ## Stable in-memory sort and stable binary merge

Modelled from the spec: the in-memory sort of a buffered run and the
heap-based k-way merge with the tie-break rule "the row from the Run with
the lower Run index is emitted first" (the implementation files are not in
this source tree). -/

/-- Insert `x` in front of the first element it precedes-or-ties; elements
strictly before `x` are kept in place (stable insertion). -/
def insRow (desc : SortDescription) (x : Row) : List Row → List Row
  | [] => [x]
  | y :: ys => if rowLe desc x y then x :: y :: ys else y :: insRow desc x ys

/-- Stable insertion sort of a buffered run.  A later row is inserted after
all earlier rows with equal keys, preserving input order among ties. -/
def insort (desc : SortDescription) : List Row → List Row
  | [] => []
  | x :: xs => insRow desc x (insort desc xs)

/-- Stable two-run merge: when the heads tie, the head of the first (lower
run index) list is emitted first. -/
def merge2 (desc : SortDescription) : List Row → List Row → List Row
  | [], ys => ys
  | x :: xs, [] => x :: xs
  | x :: xs, y :: ys =>
    if rowLe desc x y then x :: merge2 desc xs (y :: ys)
    else y :: merge2 desc (x :: xs) ys
termination_by xs ys => xs.length + ys.length

/-- k-way merge of the runs in creation order, folding the stable two-run
merge from the lowest run index. -/
def mergeRuns (desc : SortDescription) (runs : List (List Row)) : List Row :=
  runs.foldl (merge2 desc) []

/-! ### insRow / insort lemmas -/

theorem insRow_perm (desc : SortDescription) (x : Row) (l : List Row) :
    insRow desc x l ~ x :: l := by
  induction l with
  | nil => rfl
  | cons y ys ih =>
    unfold insRow
    split
    · rfl
    · exact ((ih.cons y).trans (List.Perm.swap x y ys))

theorem insort_perm (desc : SortDescription) (l : List Row) :
    insort desc l ~ l := by
  induction l with
  | nil => rfl
  | cons x xs ih => exact (insRow_perm desc x (insort desc xs)).trans (ih.cons x)

theorem insort_length (desc : SortDescription) (l : List Row) :
    (insort desc l).length = l.length :=
  (insort_perm desc l).length_eq

theorem insRow_sorted {desc : SortDescription} {l : List Row}
    (h : RowsOrdered desc l) (x : Row) : RowsOrdered desc (insRow desc x l) := by
  induction l with
  | nil => exact List.pairwise_singleton _ x
  | cons y ys ih =>
    obtain ⟨hy, hys⟩ := List.pairwise_cons.mp h
    unfold insRow
    split
    · rename_i hxy
      refine List.Pairwise.cons ?_ (List.Pairwise.cons hy hys)
      intro b hb
      rcases List.mem_cons.mp hb with rfl | hb
      · exact hxy
      · exact rowLe_trans hxy (hy b hb)
    · rename_i hxy
      have hyx : rowLe desc y x = true := rowLe_of_not_rowLe (by simpa using hxy)
      refine List.Pairwise.cons ?_ (ih hys)
      intro b hb
      have hb' : b ∈ x :: ys := (insRow_perm desc x ys).mem_iff.mp hb
      rcases List.mem_cons.mp hb' with rfl | hb'
      · exact hyx
      · exact hy b hb'

theorem insort_sorted (desc : SortDescription) (l : List Row) :
    RowsOrdered desc (insort desc l) := by
  induction l with
  | nil => exact List.Pairwise.nil
  | cons x xs ih => exact insRow_sorted ih x

/-- Stability of insertion: rows with a given key are kept in order.  Rows
passed over during insertion are strictly greater than `x`, so none of them
shares a key with `x`. -/
theorem insRow_filter_keyEq (desc : SortDescription) (k x : Row) (l : List Row) :
    (insRow desc x l).filter (keyEq desc k) =
      if keyEq desc k x then x :: l.filter (keyEq desc k)
      else l.filter (keyEq desc k) := by
  induction l with
  | nil =>
    unfold insRow
    by_cases hx : keyEq desc k x = true <;> simp [List.filter, hx]
  | cons y ys ih =>
    unfold insRow
    split
    · by_cases hx : keyEq desc k x = true <;> simp [List.filter_cons, hx]
    · rename_i hxy
      have hgt : cmpRow desc x y = .gt := by
        rcases h : cmpRow desc x y with _ | _ | _ <;>
          simp [rowLe, h] at hxy ⊢
      rw [List.filter_cons, List.filter_cons]
      by_cases hy : keyEq desc k y = true
      · by_cases hx : keyEq desc k x = true
        · exact (not_keyEq_of_gt hy hgt hx).elim
        · simp [hy, hx, ih]
      · simp only [hy]
        simp only [Bool.false_eq_true, if_false, ih]

theorem insort_filter_keyEq (desc : SortDescription) (k : Row) (l : List Row) :
    (insort desc l).filter (keyEq desc k) = l.filter (keyEq desc k) := by
  induction l with
  | nil => rfl
  | cons x xs ih =>
    show (insRow desc x (insort desc xs)).filter _ = _
    rw [insRow_filter_keyEq, List.filter_cons]
    by_cases hx : keyEq desc k x = true <;> simp [hx, ih]

/-! ### merge2 lemmas -/

theorem merge2_nil_left (desc : SortDescription) (l : List Row) :
    merge2 desc [] l = l := by
  unfold merge2; rfl

theorem merge2_nil_right (desc : SortDescription) (l : List Row) :
    merge2 desc l [] = l := by
  unfold merge2
  cases l <;> rfl

theorem merge2_perm (desc : SortDescription) (xs ys : List Row) :
    merge2 desc xs ys ~ xs ++ ys := by
  induction xs generalizing ys with
  | nil => rw [merge2_nil_left]; rfl
  | cons x xs ihx =>
    induction ys with
    | nil => rw [merge2_nil_right, List.append_nil]
    | cons y ys ihy =>
      unfold merge2
      split
      · exact (ihx (y :: ys)).cons x
      · calc y :: merge2 desc (x :: xs) ys
            ~ y :: (x :: xs ++ ys) := ihy.cons y
          _ ~ x :: xs ++ y :: ys := (List.perm_middle).symm

theorem merge2_length (desc : SortDescription) (xs ys : List Row) :
    (merge2 desc xs ys).length = xs.length + ys.length := by
  have := (merge2_perm desc xs ys).length_eq
  simpa using this

theorem merge2_sorted {desc : SortDescription} {xs ys : List Row}
    (hx : RowsOrdered desc xs) (hy : RowsOrdered desc ys) :
    RowsOrdered desc (merge2 desc xs ys) := by
  induction xs generalizing ys with
  | nil => rw [merge2_nil_left]; exact hy
  | cons x xs ihx =>
    induction ys with
    | nil => rw [merge2_nil_right]; exact hx
    | cons y ys ihy =>
      obtain ⟨hxall, hxs⟩ := List.pairwise_cons.mp hx
      obtain ⟨hyall, hys⟩ := List.pairwise_cons.mp hy
      unfold merge2
      split
      · rename_i hxy
        refine List.Pairwise.cons ?_ (ihx hxs (List.Pairwise.cons hyall hys))
        intro b hb
        have hb' : b ∈ xs ++ y :: ys := (merge2_perm desc xs (y :: ys)).mem_iff.mp hb
        rcases List.mem_append.mp hb' with hb' | hb'
        · exact hxall b hb'
        · rcases List.mem_cons.mp hb' with rfl | hb'
          · exact hxy
          · exact rowLe_trans hxy (hyall b hb')
      · rename_i hxy
        have hyx : rowLe desc y x = true := rowLe_of_not_rowLe (by simpa using hxy)
        refine List.Pairwise.cons ?_ (ihy hys)
        intro b hb
        have hb' : b ∈ (x :: xs) ++ ys := (merge2_perm desc (x :: xs) ys).mem_iff.mp hb
        rcases List.mem_append.mp hb' with hb' | hb'
        · rcases List.mem_cons.mp hb' with rfl | hb'
          · exact hyx
          · exact rowLe_trans hyx (hxall b hb')
        · exact hyall b hb'

/-- Stability of the two-run merge: the rows matching one key come out as
all the matching rows of the first run followed by those of the second.
Requires both runs sorted: a key class, once abandoned in the first run,
cannot resurface there. -/
theorem merge2_filter_keyEq {desc : SortDescription} {xs ys : List Row}
    (hx : RowsOrdered desc xs) (hy : RowsOrdered desc ys) (k : Row) :
    (merge2 desc xs ys).filter (keyEq desc k) =
      xs.filter (keyEq desc k) ++ ys.filter (keyEq desc k) := by
  induction xs generalizing ys with
  | nil => rw [merge2_nil_left]; rfl
  | cons x xs ihx =>
    induction ys with
    | nil => rw [merge2_nil_right, List.filter_nil, List.append_nil]
    | cons y ys ihy =>
      obtain ⟨hxall, hxs⟩ := List.pairwise_cons.mp hx
      obtain ⟨hyall, hys⟩ := List.pairwise_cons.mp hy
      unfold merge2
      split
      · rename_i hxy
        rw [List.filter_cons, List.filter_cons]
        have ihx' := ihx hxs (List.Pairwise.cons hyall hys)
        by_cases hkx : keyEq desc k x = true
        · simp only [hkx, if_pos, List.cons_append]
          rw [ihx']
        · simp only [hkx]
          simp only [Bool.false_eq_true, if_false]
          rw [ihx']
      · rename_i hxy
        have hgt : cmpRow desc x y = .gt := by
          rcases h : cmpRow desc x y with _ | _ | _ <;>
            simp [rowLe, h] at hxy ⊢
        have ihy' := ihy hys
        rw [List.filter_cons (x := y)]
        by_cases hky : keyEq desc k y = true
        · -- no row of x :: xs matches key k
          have hnone : (x :: xs).filter (keyEq desc k) = [] := by
            rw [List.filter_eq_nil_iff]
            intro a ha hka
            rcases List.mem_cons.mp ha with rfl | ha
            · exact not_keyEq_of_gt hky hgt hka
            · -- a comes after x in a sorted run, so a ≥ x > y
              have hxa : rowLe desc x a = true := hxall a ha
              rw [rowLe_iff] at hxa
              have hya : cmpRow desc y a = .lt := by
                have hyx : cmpRow desc y x = .lt := by
                  have := cmpRow_swap desc x y
                  rw [hgt] at this
                  rcases h2 : cmpRow desc y x with _ | _ | _ <;> rw [h2] at this <;>
                    simp [Ordering.swap] at this ⊢
                rcases hxa2 : cmpRow desc x a with _ | _ | _
                · exact cmpRow_lt_trans hyx hxa2
                · have := cmpRow_congr_right hxa2 y
                  rw [← this]; exact hyx
                · exact absurd hxa2 hxa
              have : cmpRow desc a y = .gt := by
                have := cmpRow_swap desc y a
                rw [hya] at this
                rcases h2 : cmpRow desc a y with _ | _ | _ <;> rw [h2] at this <;>
                  simp [Ordering.swap] at this ⊢
              exact not_keyEq_of_gt hky this hka
          simp only [hky, if_pos]
          rw [hnone, ihy', hnone, List.nil_append, List.nil_append,
            List.filter_cons, if_pos hky]
        · simp only [hky]
          simp only [Bool.false_eq_true, if_false]
          rw [ihy', List.filter_cons (x := y)]
          simp only [hky]
          simp only [Bool.false_eq_true, if_false]

/-! ### k-way merge lemmas -/

theorem foldl_merge2_sorted {desc : SortDescription} {rs : List (List Row)} {acc : List Row}
    (hacc : RowsOrdered desc acc) (hrs : ∀ r ∈ rs, RowsOrdered desc r) :
    RowsOrdered desc (rs.foldl (merge2 desc) acc) := by
  induction rs generalizing acc with
  | nil => exact hacc
  | cons r rs ih =>
    exact ih (merge2_sorted hacc (hrs r (by simp)))
      (fun r' hr' => hrs r' (by simp [hr']))

theorem foldl_merge2_perm (desc : SortDescription) (rs : List (List Row)) (acc : List Row) :
    rs.foldl (merge2 desc) acc ~ acc ++ rs.flatten := by
  induction rs generalizing acc with
  | nil => simp
  | cons r rs ih =>
    calc (r :: rs).foldl (merge2 desc) acc
        = rs.foldl (merge2 desc) (merge2 desc acc r) := rfl
      _ ~ merge2 desc acc r ++ rs.flatten := ih _
      _ ~ (acc ++ r) ++ rs.flatten := (merge2_perm desc acc r).append_right _
      _ = acc ++ (r :: rs).flatten := by simp

theorem foldl_merge2_filter {desc : SortDescription} (k : Row) {rs : List (List Row)}
    {acc : List Row} (hacc : RowsOrdered desc acc) (hrs : ∀ r ∈ rs, RowsOrdered desc r) :
    (rs.foldl (merge2 desc) acc).filter (keyEq desc k) =
      acc.filter (keyEq desc k) ++ (rs.flatten).filter (keyEq desc k) := by
  induction rs generalizing acc with
  | nil => simp
  | cons r rs ih =>
    have h1 := ih (merge2_sorted hacc (hrs r (by simp)))
      (fun r' hr' => hrs r' (by simp [hr']))
    calc ((r :: rs).foldl (merge2 desc) acc).filter (keyEq desc k)
        = (merge2 desc acc r).filter (keyEq desc k) ++
            (rs.flatten).filter (keyEq desc k) := h1
      _ = (acc.filter (keyEq desc k) ++ r.filter (keyEq desc k)) ++
            (rs.flatten).filter (keyEq desc k) := by
          rw [merge2_filter_keyEq hacc (hrs r (by simp)) k]
      _ = acc.filter (keyEq desc k) ++ ((r :: rs).flatten).filter (keyEq desc k) := by
          simp [List.filter_append]

theorem mergeRuns_sorted {desc : SortDescription} {rs : List (List Row)}
    (hrs : ∀ r ∈ rs, RowsOrdered desc r) : RowsOrdered desc (mergeRuns desc rs) :=
  foldl_merge2_sorted List.Pairwise.nil hrs

theorem mergeRuns_perm (desc : SortDescription) (rs : List (List Row)) :
    mergeRuns desc rs ~ rs.flatten := by
  have := foldl_merge2_perm desc rs []
  simpa [mergeRuns] using this

theorem mergeRuns_filter {desc : SortDescription} (k : Row) {rs : List (List Row)}
    (hrs : ∀ r ∈ rs, RowsOrdered desc r) :
    (mergeRuns desc rs).filter (keyEq desc k) = (rs.flatten).filter (keyEq desc k) := by
  have := foldl_merge2_filter k List.Pairwise.nil hrs
  simpa [mergeRuns] using this

/-! ## Chunking of the merged output -/

/-- Cut the merged row stream into output chunks of the target size
(`max_merged_block_size`); a size of `0` degrades to one row per chunk. -/
def chunkify (n : Nat) : List Row → List Chunk
  | [] => []
  | x :: xs => ((x :: xs).take (max 1 n)) :: chunkify n ((x :: xs).drop (max 1 n))
termination_by l => l.length
decreasing_by
  simp only [List.length_drop, List.length_cons]
  omega

theorem chunkify_flatten (n : Nat) (l : List Row) : (chunkify n l).flatten = l := by
  generalize hk : l.length = k
  induction k using Nat.strong_induction_on generalizing l with
  | _ k ih =>
    cases l with
    | nil => simp [chunkify]
    | cons x xs =>
      rw [chunkify]
      simp only [List.flatten_cons]
      rw [ih (((x :: xs).drop (max 1 n)).length) ?_ _ rfl]
      · exact List.take_append_drop _ _
      · subst hk
        simp only [List.length_drop, List.length_cons]
        omega

/-! ## The MergeSortingTransform, modelled from the spec

The implementation of `MergeSortingTransform` is not part of this source
tree; the phases below (accumulating with optional remerge and spilling,
finalizing, k-way merging with limit truncation) are modelled from the
specification, section 4.4. -/

/-- Construction-time parameters of `MergeSortingTransform` (spec §6):
sort description, target output chunk size, row limit (0 = unlimited), and
the two byte thresholds. -/
structure MSConfig where
  desc : SortDescription
  maxMergedBlockSize : Nat
  limit : Nat
  maxBytesBeforeRemerge : Nat
  maxBytesBeforeExternalSort : Nat

/-- Modelled from the spec: byte accounting of buffered chunk data — 8
bytes per value (the UInt64 columns of the test pipeline). -/
def rowBytes (r : Row) : Nat := 8 * r.length

def chunkBytes (c : Chunk) : Nat := (c.map rowBytes).sum

/-- One finalized Run (spec §3): a sorted row sequence, either in memory or
spilled to external storage. -/
structure Run where
  rows : List Row
  spilled : Bool

/-- State of the accumulating phase: buffered input chunks, their byte
account, and the Runs created so far (in creation order). -/
structure AccState where
  buffer : List Chunk
  bufBytes : Nat
  runs : List Run

def initAcc : AccState := ⟨[], 0, []⟩

/-- Remerge (spec §4.4 phase 1): sort the buffer and keep only the first
`limit` rows, discarding the rest to bound memory for top-K queries. -/
def remerge (cfg : MSConfig) (st : AccState) : AccState :=
  let kept := (insort cfg.desc st.buffer.flatten).take cfg.limit
  { st with buffer := [kept], bufBytes := chunkBytes kept }

/-- The remerge trigger: a limit is set, the remerge byte threshold is
enabled and exceeded, and the buffer holds more than a small multiple (2)
of `limit` rows (the multiplier is an implementation-chosen constant). -/
def remergeCond (cfg : MSConfig) (st : AccState) : Bool :=
  0 < cfg.limit && 0 < cfg.maxBytesBeforeRemerge &&
    cfg.maxBytesBeforeRemerge < st.bufBytes &&
    2 * cfg.limit < st.buffer.flatten.length

/-- The spill trigger: external sorting is enabled (threshold nonzero) and
accumulated bytes exceed it. -/
def spillCond (cfg : MSConfig) (st : AccState) : Bool :=
  0 < cfg.maxBytesBeforeExternalSort &&
    cfg.maxBytesBeforeExternalSort < st.bufBytes

/-- Spill: sort the current buffer into one Run written to external
storage, and clear the buffer to reclaim memory. -/
def spill (cfg : MSConfig) (st : AccState) : AccState :=
  ⟨[], 0, st.runs ++ [⟨insort cfg.desc st.buffer.flatten, true⟩]⟩

/-- Append one arriving chunk to the in-memory buffer. -/
def appendChunk (st : AccState) (c : Chunk) : AccState :=
  { st with buffer := st.buffer ++ [c], bufBytes := st.bufBytes + chunkBytes c }

def remergeStep (cfg : MSConfig) (st : AccState) : AccState :=
  if remergeCond cfg st then remerge cfg st else st

def spillStep (cfg : MSConfig) (st : AccState) : AccState :=
  if spillCond cfg st then spill cfg st else st

/-- Accumulating one input chunk: append to the buffer, then apply the
remerge and spill rules in that order. -/
def consumeChunk (cfg : MSConfig) (st : AccState) (c : Chunk) : AccState :=
  spillStep cfg (remergeStep cfg (appendChunk st c))

def accumulate (cfg : MSConfig) (input : List Chunk) : AccState :=
  input.foldl (consumeChunk cfg) initAcc

/-- Finalizing (spec §4.4 phase 2): sort whatever remains in the buffer
into a final in-memory Run. -/
def finalizeRuns (cfg : MSConfig) (st : AccState) : List Run :=
  st.runs ++ [⟨insort cfg.desc st.buffer.flatten, false⟩]

/-- Merging (spec §4.4 phase 3): k-way stable merge of all Runs in
creation order. -/
def mergedRows (cfg : MSConfig) (input : List Chunk) : List Row :=
  mergeRuns cfg.desc ((finalizeRuns cfg (accumulate cfg input)).map Run.rows)

/-- The emitted row stream: the merge output, truncated to `limit` rows
when a limit is set. -/
def limitedRows (cfg : MSConfig) (input : List Chunk) : List Row :=
  if cfg.limit = 0 then mergedRows cfg input
  else (mergedRows cfg input).take cfg.limit

/-- The full transform: emitted rows re-chunked to the target output chunk
size. -/
def mergeSortingTransform (cfg : MSConfig) (input : List Chunk) : List Chunk :=
  chunkify cfg.maxMergedBlockSize (limitedRows cfg input)

/-- All rows currently owned by the accumulating state, in run-creation
order followed by the buffer. -/
def stateRows (st : AccState) : List Row :=
  (st.runs.map Run.rows).flatten ++ st.buffer.flatten

/-! ## Invariants of the accumulating phase -/

theorem foldl_consume_pres {cfg : MSConfig} (P : AccState → Prop)
    (hp : ∀ st c, P st → P (consumeChunk cfg st c)) :
    ∀ (input : List Chunk) (st : AccState), P st →
      P (input.foldl (consumeChunk cfg) st) := by
  intro input
  induction input with
  | nil => intro st h; exact h
  | cons c cs ih => intro st h; exact ih _ (hp st c h)

theorem consumeChunk_runs_sorted {cfg : MSConfig} {st : AccState} {c : Chunk}
    (h : ∀ r ∈ st.runs, RowsOrdered cfg.desc r.rows) :
    ∀ r ∈ (consumeChunk cfg st c).runs, RowsOrdered cfg.desc r.rows := by
  unfold consumeChunk spillStep remergeStep
  split <;> split <;> intro r hr <;>
    first
      | exact h r hr
      | · simp only [spill, remerge, appendChunk] at hr
          rcases List.mem_append.mp hr with hr | hr
          · exact h r hr
          · simp only [List.mem_singleton] at hr
            subst hr
            exact insort_sorted _ _

theorem accumulate_runs_sorted (cfg : MSConfig) (input : List Chunk) :
    ∀ r ∈ (accumulate cfg input).runs, RowsOrdered cfg.desc r.rows := by
  refine foldl_consume_pres (fun st => ∀ r ∈ st.runs, RowsOrdered cfg.desc r.rows)
    (fun st c h => consumeChunk_runs_sorted h) input initAcc ?_
  intro r hr
  simp [initAcc] at hr

theorem finalizeRuns_sorted (cfg : MSConfig) (input : List Chunk) :
    ∀ r ∈ ((finalizeRuns cfg (accumulate cfg input)).map Run.rows), RowsOrdered cfg.desc r := by
  intro r hr
  rcases List.mem_map.mp hr with ⟨run, hrun, rfl⟩
  unfold finalizeRuns at hrun
  rcases List.mem_append.mp hrun with hrun | hrun
  · exact accumulate_runs_sorted cfg input run hrun
  · simp only [List.mem_singleton] at hrun
    subst hrun
    exact insort_sorted _ _

theorem mergedRows_sorted (cfg : MSConfig) (input : List Chunk) :
    RowsOrdered cfg.desc (mergedRows cfg input) :=
  mergeRuns_sorted (finalizeRuns_sorted cfg input)

/-- The rows of all finalized runs are a permutation of the accumulated
state's rows. -/
theorem finalizeRuns_flatten_perm (cfg : MSConfig) (st : AccState) :
    ((finalizeRuns cfg st).map Run.rows).flatten ~ stateRows st := by
  unfold finalizeRuns stateRows
  simp only [List.map_append, List.flatten_append, List.map_cons, List.map_nil,
    List.flatten_cons, List.flatten_nil, List.append_nil]
  exact (insort_perm cfg.desc st.buffer.flatten).append_left _

theorem mergedRows_perm_stateRows (cfg : MSConfig) (input : List Chunk) :
    mergedRows cfg input ~ stateRows (accumulate cfg input) :=
  (mergeRuns_perm cfg.desc _).trans (finalizeRuns_flatten_perm cfg _)

theorem mergedRows_filter_stateRows (cfg : MSConfig) (input : List Chunk) (k : Row) :
    (mergedRows cfg input).filter (keyEq cfg.desc k) =
      (stateRows (accumulate cfg input)).filter (keyEq cfg.desc k) := by
  unfold mergedRows
  rw [mergeRuns_filter k (finalizeRuns_sorted cfg input)]
  unfold finalizeRuns stateRows
  simp only [List.map_append, List.flatten_append, List.map_cons, List.map_nil,
    List.flatten_cons, List.flatten_nil, List.append_nil, List.filter_append]
  rw [insort_filter_keyEq]

/-- Appending one chunk to the buffer appends its rows to the state. -/
theorem stateRows_append (st : AccState) (c : Chunk) :
    stateRows (appendChunk st c) = stateRows st ++ c := by
  unfold stateRows appendChunk
  simp [List.flatten_append]

theorem spill_stateRows_perm (cfg : MSConfig) (st : AccState) :
    stateRows (spill cfg st) ~ stateRows st := by
  unfold spill stateRows
  simp only [List.map_append, List.flatten_append, List.map_cons, List.map_nil,
    List.flatten_cons, List.flatten_nil, List.append_nil]
  exact (insort_perm cfg.desc st.buffer.flatten).append_left _

theorem spill_stateRows_filter (cfg : MSConfig) (st : AccState) (k : Row) :
    (stateRows (spill cfg st)).filter (keyEq cfg.desc k) =
      (stateRows st).filter (keyEq cfg.desc k) := by
  unfold spill stateRows
  simp only [List.map_append, List.flatten_append, List.map_cons, List.map_nil,
    List.flatten_cons, List.flatten_nil, List.append_nil, List.filter_append]
  rw [insort_filter_keyEq]

/-- With `limit = 0` the remerge rule never fires. -/
theorem remergeCond_of_limit_zero {cfg : MSConfig} (h0 : cfg.limit = 0)
    (st : AccState) : remergeCond cfg st = false := by
  simp [remergeCond, h0]

theorem consumeChunk_stateRows_perm {cfg : MSConfig} (h0 : cfg.limit = 0)
    (st : AccState) (c : Chunk) :
    stateRows (consumeChunk cfg st c) ~ stateRows st ++ c := by
  unfold consumeChunk spillStep remergeStep
  rw [remergeCond_of_limit_zero h0]
  simp only [Bool.false_eq_true, if_false]
  split
  · exact (spill_stateRows_perm cfg _).trans (by rw [stateRows_append])
  · rw [stateRows_append]

theorem consumeChunk_stateRows_filter {cfg : MSConfig} (h0 : cfg.limit = 0)
    (st : AccState) (c : Chunk) (k : Row) :
    (stateRows (consumeChunk cfg st c)).filter (keyEq cfg.desc k) =
      (stateRows st ++ c).filter (keyEq cfg.desc k) := by
  unfold consumeChunk spillStep remergeStep
  rw [remergeCond_of_limit_zero h0]
  simp only [Bool.false_eq_true, if_false]
  split
  · rw [spill_stateRows_filter, stateRows_append]
  · rw [stateRows_append]

theorem accumulate_stateRows_perm {cfg : MSConfig} (h0 : cfg.limit = 0)
    (input : List Chunk) :
    stateRows (accumulate cfg input) ~ input.flatten := by
  suffices h : ∀ st, stateRows (input.foldl (consumeChunk cfg) st) ~
      stateRows st ++ input.flatten by
    have := h initAcc
    simpa [accumulate, stateRows, initAcc] using this
  induction input with
  | nil => intro st; simp
  | cons c cs ih =>
    intro st
    calc stateRows ((c :: cs).foldl (consumeChunk cfg) st)
        = stateRows (cs.foldl (consumeChunk cfg) (consumeChunk cfg st c)) := rfl
      _ ~ stateRows (consumeChunk cfg st c) ++ cs.flatten := ih _
      _ ~ (stateRows st ++ c) ++ cs.flatten :=
          (consumeChunk_stateRows_perm h0 st c).append_right _
      _ = stateRows st ++ (c :: cs).flatten := by simp

theorem accumulate_stateRows_filter {cfg : MSConfig} (h0 : cfg.limit = 0)
    (input : List Chunk) (k : Row) :
    (stateRows (accumulate cfg input)).filter (keyEq cfg.desc k) =
      (input.flatten).filter (keyEq cfg.desc k) := by
  suffices h : ∀ st, (stateRows (input.foldl (consumeChunk cfg) st)).filter (keyEq cfg.desc k) =
      (stateRows st ++ input.flatten).filter (keyEq cfg.desc k) by
    have := h initAcc
    simpa [accumulate, stateRows, initAcc] using this
  induction input with
  | nil => intro st; simp
  | cons c cs ih =>
    intro st
    calc (stateRows ((c :: cs).foldl (consumeChunk cfg) st)).filter (keyEq cfg.desc k)
        = (stateRows (cs.foldl (consumeChunk cfg) (consumeChunk cfg st c))).filter
            (keyEq cfg.desc k) := rfl
      _ = (stateRows (consumeChunk cfg st c) ++ cs.flatten).filter (keyEq cfg.desc k) := ih _
      _ = ((stateRows st ++ c) ++ cs.flatten).filter (keyEq cfg.desc k) := by
          rw [List.filter_append, List.filter_append,
            consumeChunk_stateRows_filter h0 st c k]
      _ = (stateRows st ++ (c :: cs).flatten).filter (keyEq cfg.desc k) := by simp

/-! ## Claims C1, C2, C4, C9 -/

/-- C1: For every finite input sequence of Chunks fed to MergeSortingTransform
and every SortDescription, the concatenation of the output Chunks in emitted
order is a row sequence that is non-decreasing (or non-increasing, per each
sort direction) under the SortDescription's comparator, for every value of
`max_bytes_before_external_sort` (including 0, which forces in-memory-only
sorting, and values small enough to force multiple spills); the whole
configuration, thresholds and limit included, is universally quantified. -/
theorem claim_C1_sort_correctness (cfg : MSConfig) (input : List Chunk) :
    RowsOrdered cfg.desc (mergeSortingTransform cfg input).flatten := by
  unfold mergeSortingTransform
  rw [chunkify_flatten]
  unfold limitedRows
  split
  · exact mergedRows_sorted cfg input
  · exact List.Pairwise.sublist (List.take_sublist _ _) (mergedRows_sorted cfg input)

/-- C2: When MergeSortingTransform is configured with `limit = 0`, the sum of
row counts over all output Chunks equals the sum of row counts over all input
Chunks, for every finite input and every spill threshold. -/
theorem claim_C2_row_conservation (cfg : MSConfig) (input : List Chunk)
    (h0 : cfg.limit = 0) :
    ((mergeSortingTransform cfg input).map List.length).sum =
      (input.map List.length).sum := by
  rw [← List.length_flatten, ← List.length_flatten]
  rw [show (mergeSortingTransform cfg input).flatten = limitedRows cfg input from
    chunkify_flatten _ _]
  unfold limitedRows
  rw [if_pos h0]
  exact ((mergedRows_perm_stateRows cfg input).trans
    (accumulate_stateRows_perm h0 input)).length_eq

theorem claim_C2_row_conservation_witness :
    (⟨[(0, 1)], 3, 0, 10, 16⟩ : MSConfig).limit = 0 ∧
      ((mergeSortingTransform ⟨[(0, 1)], 3, 0, 10, 16⟩
          [[[2], [1]], [[3]]]).map List.length).sum =
        ([[[2], [1]], [[3]]].map List.length).sum :=
  ⟨rfl, claim_C2_row_conservation ⟨[(0, 1)], 3, 0, 10, 16⟩ [[[2], [1]], [[3]]] rfl⟩

/-- C9: When MergeSortingTransform is constructed with
`max_bytes_before_external_sort = 0`, no spill to external storage ever
occurs: no Run is ever written externally (the run list stays empty until
finalization) and the merge output is exactly the in-memory sort of the
buffered rows — a pure in-memory sort. -/
theorem claim_C9_no_spill_when_disabled (cfg : MSConfig) (input : List Chunk)
    (h : cfg.maxBytesBeforeExternalSort = 0) :
    (accumulate cfg input).runs = [] ∧
      mergedRows cfg input =
        insort cfg.desc (accumulate cfg input).buffer.flatten := by
  have hruns : (accumulate cfg input).runs = [] := by
    refine foldl_consume_pres (fun st => st.runs = []) ?_ input initAcc rfl
    intro st c hst
    unfold consumeChunk spillStep remergeStep
    have hspill : ∀ s, spillCond cfg s = false := by
      intro s; simp [spillCond, h]
    rw [hspill]
    simp only [Bool.false_eq_true, if_false]
    split
    · simp [remerge, appendChunk, hst]
    · simp [appendChunk, hst]
  refine ⟨hruns, ?_⟩
  unfold mergedRows finalizeRuns mergeRuns
  rw [hruns]
  simp only [List.nil_append, List.map_cons, List.map_nil, List.foldl_cons,
    List.foldl_nil]
  rw [merge2_nil_left]

theorem claim_C9_no_spill_when_disabled_witness :
    (⟨[(0, 1)], 2, 0, 10, 0⟩ : MSConfig).maxBytesBeforeExternalSort = 0 ∧
      (accumulate ⟨[(0, 1)], 2, 0, 10, 0⟩ [[[5], [4]], [[6]]]).runs = [] :=
  ⟨rfl, (claim_C9_no_spill_when_disabled ⟨[(0, 1)], 2, 0, 10, 0⟩
    [[[5], [4]], [[6]]] rfl).1⟩

/-! ## Claim C3: limit truncation

`countLe desc y s` counts the rows of `s` that precede-or-tie `y`; in a
sorted sequence these rows form a prefix, which lets us track, across
remerge discards, that every discarded row is preceded by at least `limit`
retained rows. -/

def countLe (desc : SortDescription) (y : Row) (s : List Row) : Nat :=
  (s.filter (fun x => rowLe desc x y)).length

theorem countLe_append (desc : SortDescription) (y : Row) (s t : List Row) :
    countLe desc y (s ++ t) = countLe desc y s + countLe desc y t := by
  unfold countLe
  rw [List.filter_append, List.length_append]

theorem countLe_perm {desc : SortDescription} {y : Row} {s t : List Row}
    (h : s ~ t) : countLe desc y s = countLe desc y t :=
  (h.filter _).length_eq

/-- In a sorted sequence, the rows preceding-or-tying `y` are an initial
segment. -/
theorem sorted_filter_le_eq_take {desc : SortDescription} {s : List Row}
    (hs : RowsOrdered desc s) (y : Row) :
    s.filter (fun x => rowLe desc x y) = s.take (countLe desc y s) := by
  induction s with
  | nil => rfl
  | cons x xs ih =>
    obtain ⟨hx, hxs⟩ := List.pairwise_cons.mp hs
    by_cases hxy : rowLe desc x y = true
    · unfold countLe
      simp only [List.filter_cons, hxy, if_true, List.length_cons, List.take_succ_cons]
      exact congrArg (List.cons x) (ih hxs)
    · have hnone : xs.filter (fun x => rowLe desc x y) = [] := by
        rw [List.filter_eq_nil_iff]
        intro a ha hay
        exact hxy (rowLe_trans (hx a ha) (by simpa using hay))
      unfold countLe
      simp only [List.filter_cons, hxy]
      simp only [Bool.false_eq_true, if_false, hnone, List.length_nil, List.take_zero]

theorem rowLe_of_mem_take_countLe {desc : SortDescription} {s : List Row} {y : Row}
    (hs : RowsOrdered desc s) {L : Nat} (hL : L ≤ countLe desc y s) {x : Row}
    (hx : x ∈ s.take L) : rowLe desc x y = true := by
  have h1 : s.take L = (s.take (countLe desc y s)).take L := by
    rw [List.take_take, min_eq_left hL]
  rw [h1, ← sorted_filter_le_eq_take hs y] at hx
  have h2 := List.mem_of_mem_take hx
  simpa using List.of_mem_filter h2

theorem countLe_take {desc : SortDescription} {s : List Row}
    (hs : RowsOrdered desc s) (y : Row) (L : Nat) :
    countLe desc y (s.take L) = min L (countLe desc y s) := by
  induction s generalizing L with
  | nil => simp [countLe]
  | cons x xs ih =>
    obtain ⟨hx, hxs⟩ := List.pairwise_cons.mp hs
    cases L with
    | zero => simp [countLe]
    | succ L =>
      by_cases hxy : rowLe desc x y = true
      · unfold countLe at *
        simp only [List.take_succ_cons, List.filter_cons, hxy, if_true,
          List.length_cons]
        rw [ih hxs]
        omega
      · have hnone : xs.filter (fun x => rowLe desc x y) = [] := by
          rw [List.filter_eq_nil_iff]
          intro a ha hay
          exact hxy (rowLe_trans (hx a ha) (by simpa using hay))
        have hnone2 : (xs.take L).filter (fun x => rowLe desc x y) = [] := by
          rw [List.filter_eq_nil_iff] at hnone ⊢
          intro a ha
          exact hnone a (List.mem_of_mem_take ha)
        unfold countLe
        simp only [List.take_succ_cons, List.filter_cons, hxy]
        simp only [Bool.false_eq_true, if_false, hnone, hnone2, List.length_nil]
        omega

/-- The invariant carried through the accumulating phase when a limit is
set: some multiset `disc` of rows has been discarded by remerges; every
discarded row is preceded-or-tied by at least `limit` rows still owned by
the state; and once anything has been discarded the state keeps at least
`limit` rows. -/
def LimitInv (cfg : MSConfig) (consumed : List Row) (st : AccState) : Prop :=
  ∃ disc : List Row,
    stateRows st ++ disc ~ consumed ∧
    (∀ y ∈ disc, cfg.limit ≤ countLe cfg.desc y (stateRows st)) ∧
    (disc = [] ∨ cfg.limit ≤ (stateRows st).length)

theorem limitInv_init (cfg : MSConfig) : LimitInv cfg [] initAcc :=
  ⟨[], by simp [stateRows, initAcc], by simp, Or.inl rfl⟩

theorem limitInv_append {cfg : MSConfig} {consumed : List Row} {st : AccState}
    (h : LimitInv cfg consumed st) (c : Chunk) :
    LimitInv cfg (consumed ++ c) (appendChunk st c) := by
  obtain ⟨disc, hperm, hcnt, hlen⟩ := h
  refine ⟨disc, ?_, ?_, ?_⟩
  · rw [stateRows_append]
    calc (stateRows st ++ c) ++ disc
        = stateRows st ++ (c ++ disc) := by rw [List.append_assoc]
      _ ~ stateRows st ++ (disc ++ c) := (List.perm_append_comm).append_left _
      _ = (stateRows st ++ disc) ++ c := by rw [List.append_assoc]
      _ ~ consumed ++ c := hperm.append_right c
  · intro y hy
    rw [stateRows_append, countLe_append]
    exact le_trans (hcnt y hy) (Nat.le_add_right _ _)
  · rcases hlen with h | h
    · exact Or.inl h
    · refine Or.inr ?_
      rw [stateRows_append, List.length_append]
      exact le_trans h (Nat.le_add_right _ _)

theorem stateRows_remerge (cfg : MSConfig) (st : AccState) :
    stateRows (remerge cfg st) =
      (st.runs.map Run.rows).flatten ++
        (insort cfg.desc st.buffer.flatten).take cfg.limit := by
  unfold remerge stateRows
  simp

theorem limitInv_remerge {cfg : MSConfig} {consumed : List Row} {st : AccState}
    (h : LimitInv cfg consumed st) :
    LimitInv cfg consumed (remerge cfg st) := by
  obtain ⟨disc, hperm, hcnt, hlen⟩ := h
  have hsSorted : RowsOrdered cfg.desc (insort cfg.desc st.buffer.flatten) :=
    insort_sorted _ _
  have hsPerm : insort cfg.desc st.buffer.flatten ~ st.buffer.flatten :=
    insort_perm _ _
  have hstate : stateRows st = (st.runs.map Run.rows).flatten ++ st.buffer.flatten := rfl
  refine ⟨disc ++ (insort cfg.desc st.buffer.flatten).drop cfg.limit, ?_, ?_, ?_⟩
  · rw [stateRows_remerge]
    calc ((st.runs.map Run.rows).flatten ++
            (insort cfg.desc st.buffer.flatten).take cfg.limit) ++
          (disc ++ (insort cfg.desc st.buffer.flatten).drop cfg.limit)
        ~ ((st.runs.map Run.rows).flatten ++
            (insort cfg.desc st.buffer.flatten).take cfg.limit) ++
          ((insort cfg.desc st.buffer.flatten).drop cfg.limit ++ disc) :=
          (List.perm_append_comm).append_left _
      _ = (st.runs.map Run.rows).flatten ++
            ((insort cfg.desc st.buffer.flatten).take cfg.limit ++
              ((insort cfg.desc st.buffer.flatten).drop cfg.limit ++ disc)) := by
          rw [List.append_assoc]
      _ = (st.runs.map Run.rows).flatten ++
            (((insort cfg.desc st.buffer.flatten).take cfg.limit ++
              (insort cfg.desc st.buffer.flatten).drop cfg.limit) ++ disc) := by
          rw [List.append_assoc]
      _ = ((st.runs.map Run.rows).flatten ++ insort cfg.desc st.buffer.flatten) ++
            disc := by
          rw [List.take_append_drop, ← List.append_assoc]
      _ ~ ((st.runs.map Run.rows).flatten ++ st.buffer.flatten) ++ disc :=
          ((hsPerm.append_left _).append_right disc)
      _ ~ consumed := by rw [← hstate]; exact hperm
  · intro y hy
    rw [stateRows_remerge, countLe_append]
    rcases List.mem_append.mp hy with hy | hy
    · -- previously discarded row: transfer the count through the truncation
      have hold := hcnt y hy
      rw [hstate, countLe_append, ← countLe_perm hsPerm] at hold
      rw [countLe_take hsSorted]
      omega
    · -- row discarded by this remerge: everything kept precedes-or-ties it
      have hcount : countLe cfg.desc y
          ((insort cfg.desc st.buffer.flatten).take cfg.limit) =
          ((insort cfg.desc st.buffer.flatten).take cfg.limit).length := by
        unfold countLe
        rw [List.filter_eq_self.mpr]
        intro a ha
        simpa using List.Sorted.rel_of_mem_take_of_mem_drop hsSorted ha hy
      have hlen2 : cfg.limit < (insort cfg.desc st.buffer.flatten).length := by
        by_contra hcon
        push_neg at hcon
        rw [List.drop_eq_nil_of_le hcon] at hy
        simp at hy
      rw [hcount, List.length_take]
      omega
  · by_cases hd : (insort cfg.desc st.buffer.flatten).drop cfg.limit = []
    · rcases hlen with hdisc | hlong
      · subst hdisc
        rw [hd]
        exact Or.inl rfl
      · refine Or.inr ?_
        rw [stateRows_remerge, List.length_append, List.length_take]
        have h1 : (insort cfg.desc st.buffer.flatten).length ≤ cfg.limit := by
          by_contra hcon
          push_neg at hcon
          have : (insort cfg.desc st.buffer.flatten).drop cfg.limit ≠ [] := by
            intro h2
            have := congrArg List.length h2
            simp only [List.length_drop, List.length_nil] at this
            omega
          exact this hd
        have h2 : (insort cfg.desc st.buffer.flatten).length =
            st.buffer.flatten.length := hsPerm.length_eq
        rw [hstate, List.length_append] at hlong
        omega
    · refine Or.inr ?_
      have hlen2 : cfg.limit < (insort cfg.desc st.buffer.flatten).length := by
        by_contra hcon
        push_neg at hcon
        exact hd (List.drop_eq_nil_of_le hcon)
      rw [stateRows_remerge, List.length_append, List.length_take]
      omega

theorem limitInv_spill {cfg : MSConfig} {consumed : List Row} {st : AccState}
    (h : LimitInv cfg consumed st) :
    LimitInv cfg consumed (spill cfg st) := by
  obtain ⟨disc, hperm, hcnt, hlen⟩ := h
  have hp := spill_stateRows_perm cfg st
  refine ⟨disc, (hp.append_right disc).trans hperm, ?_, ?_⟩
  · intro y hy
    rw [countLe_perm hp]
    exact hcnt y hy
  · rcases hlen with h | h
    · exact Or.inl h
    · exact Or.inr (by rw [hp.length_eq]; exact h)

theorem limitInv_consumeChunk {cfg : MSConfig} {consumed : List Row}
    {st : AccState} (h : LimitInv cfg consumed st) (c : Chunk) :
    LimitInv cfg (consumed ++ c) (consumeChunk cfg st c) := by
  have h1 := limitInv_append h c
  have h2 : LimitInv cfg (consumed ++ c) (remergeStep cfg (appendChunk st c)) := by
    unfold remergeStep
    split
    · exact limitInv_remerge h1
    · exact h1
  unfold consumeChunk spillStep
  split
  · exact limitInv_spill h2
  · exact h2

theorem limitInv_accumulate (cfg : MSConfig) (input : List Chunk) :
    LimitInv cfg input.flatten (accumulate cfg input) := by
  suffices h : ∀ (cs : List Chunk) (st : AccState) (consumed : List Row),
      LimitInv cfg consumed st →
        LimitInv cfg (consumed ++ cs.flatten) (cs.foldl (consumeChunk cfg) st) by
    have := h input initAcc [] (limitInv_init cfg)
    simpa [accumulate] using this
  intro cs
  induction cs with
  | nil => intro st consumed h; simpa using h
  | cons c cs ih =>
    intro st consumed h
    have h2 := ih (consumeChunk cfg st c) (consumed ++ c) (limitInv_consumeChunk h c)
    simpa [List.append_assoc] using h2

/-- C3: When MergeSortingTransform is configured with `limit = L > 0`, for
every finite input the total output row count equals
`min(L, total input rows)`, and the emitted rows are exactly the `L`
smallest (or largest, per each sort direction) rows of the input under the
SortDescription: the output is ordered, and the remaining input rows (a
complement `rest` with output ++ rest a permutation of the input) are all
preceded-or-tied by every emitted row. -/
theorem claim_C3_limit_truncation (cfg : MSConfig) (input : List Chunk)
    (hL : 0 < cfg.limit) :
    (mergeSortingTransform cfg input).flatten.length =
        min cfg.limit input.flatten.length ∧
      RowsOrdered cfg.desc (mergeSortingTransform cfg input).flatten ∧
      ∃ rest : List Row,
        (mergeSortingTransform cfg input).flatten ++ rest ~ input.flatten ∧
        ∀ x ∈ (mergeSortingTransform cfg input).flatten, ∀ y ∈ rest,
          rowLe cfg.desc x y = true := by
  have hne : ¬ cfg.limit = 0 := by omega
  have hout : (mergeSortingTransform cfg input).flatten =
      (mergedRows cfg input).take cfg.limit := by
    rw [show (mergeSortingTransform cfg input).flatten = limitedRows cfg input from
      chunkify_flatten _ _]
    unfold limitedRows
    rw [if_neg hne]
  obtain ⟨disc, hperm, hcnt, hlen⟩ := limitInv_accumulate cfg input
  have hmp : mergedRows cfg input ~ stateRows (accumulate cfg input) :=
    mergedRows_perm_stateRows cfg input
  have hms : RowsOrdered cfg.desc (mergedRows cfg input) :=
    mergedRows_sorted cfg input
  have hmlen : (mergedRows cfg input).length =
      (stateRows (accumulate cfg input)).length := hmp.length_eq
  have hinlen : (stateRows (accumulate cfg input)).length + disc.length =
      input.flatten.length := by
    have := hperm.length_eq
    simpa using this
  refine ⟨?_, ?_, ?_⟩
  · rw [hout, List.length_take, hmlen]
    rcases hlen with hdisc | hlong
    · subst hdisc
      simp only [List.length_nil] at hinlen
      omega
    · omega
  · rw [hout]
    exact List.Pairwise.sublist (List.take_sublist _ _) hms
  · refine ⟨(mergedRows cfg input).drop cfg.limit ++ disc, ?_, ?_⟩
    · rw [hout]
      calc (mergedRows cfg input).take cfg.limit ++
            ((mergedRows cfg input).drop cfg.limit ++ disc)
          = ((mergedRows cfg input).take cfg.limit ++
              (mergedRows cfg input).drop cfg.limit) ++ disc := by
            rw [List.append_assoc]
        _ = mergedRows cfg input ++ disc := by rw [List.take_append_drop]
        _ ~ stateRows (accumulate cfg input) ++ disc := hmp.append_right disc
        _ ~ input.flatten := hperm
    · intro x hx y hy
      rw [hout] at hx
      rcases List.mem_append.mp hy with hy | hy
      · exact List.Sorted.rel_of_mem_take_of_mem_drop hms hx hy
      · have hc : cfg.limit ≤ countLe cfg.desc y (mergedRows cfg input) := by
          rw [countLe_perm hmp]
          exact hcnt y hy
        exact rowLe_of_mem_take_countLe hms hc hx

theorem claim_C3_limit_truncation_witness :
    0 < (⟨[(0, 1)], 5, 2, 10, 0⟩ : MSConfig).limit ∧
      (mergeSortingTransform ⟨[(0, 1)], 5, 2, 10, 0⟩ [[[3], [1], [2]]]).flatten.length =
        min 2 ([[[3], [1], [2]]] : List Chunk).flatten.length :=
  ⟨by decide,
    (claim_C3_limit_truncation ⟨[(0, 1)], 5, 2, 10, 0⟩ [[[3], [1], [2]]] (by decide)).1⟩

/-! ## Claim C4: stability of the merge -/

/-- A remerge truncation keeps every key class of the state as a
subsequence: the truncated buffer's key class is a prefix of the sorted
buffer's key class, which equals the buffer's key class in input order. -/
theorem remerge_stateRows_filter_sublist (cfg : MSConfig) (st : AccState) (k : Row) :
    (stateRows (remerge cfg st)).filter (keyEq cfg.desc k) <+
      (stateRows st).filter (keyEq cfg.desc k) := by
  rw [stateRows_remerge]
  have hstate : stateRows st =
      (st.runs.map Run.rows).flatten ++ st.buffer.flatten := rfl
  rw [hstate, List.filter_append, List.filter_append]
  refine List.Sublist.append (List.Sublist.refl _) ?_
  have h1 := (List.take_sublist cfg.limit
    (insort cfg.desc st.buffer.flatten)).filter (keyEq cfg.desc k)
  rw [insort_filter_keyEq] at h1
  exact h1

theorem consumeChunk_stateRows_filter_sublist (cfg : MSConfig) (st : AccState)
    (c : Chunk) (k : Row) :
    (stateRows (consumeChunk cfg st c)).filter (keyEq cfg.desc k) <+
      (stateRows st).filter (keyEq cfg.desc k) ++ c.filter (keyEq cfg.desc k) := by
  have hmid : (stateRows (remergeStep cfg (appendChunk st c))).filter
      (keyEq cfg.desc k) <+
      (stateRows st).filter (keyEq cfg.desc k) ++ c.filter (keyEq cfg.desc k) := by
    unfold remergeStep
    split
    · refine (remerge_stateRows_filter_sublist cfg _ k).trans ?_
      rw [stateRows_append, List.filter_append]
    · rw [stateRows_append, List.filter_append]
  unfold consumeChunk spillStep
  split
  · rw [spill_stateRows_filter]
    exact hmid
  · exact hmid

/-- Through the whole accumulating phase, each key class of the state is a
subsequence of the consumed input's key class: discards never reorder
surviving equal-key rows. -/
theorem accumulate_stateRows_filter_sublist (cfg : MSConfig) (input : List Chunk)
    (k : Row) :
    (stateRows (accumulate cfg input)).filter (keyEq cfg.desc k) <+
      (input.flatten).filter (keyEq cfg.desc k) := by
  suffices h : ∀ (cs : List Chunk) (st : AccState),
      (stateRows (cs.foldl (consumeChunk cfg) st)).filter (keyEq cfg.desc k) <+
        (stateRows st).filter (keyEq cfg.desc k) ++
          (cs.flatten).filter (keyEq cfg.desc k) by
    have := h input initAcc
    simpa [accumulate, stateRows, initAcc] using this
  intro cs
  induction cs with
  | nil => intro st; simp
  | cons c cs ih =>
    intro st
    have h1 := ih (consumeChunk cfg st c)
    have h2 := consumeChunk_stateRows_filter_sublist cfg st c k
    have h3 := List.Sublist.append h2
      (List.Sublist.refl ((cs.flatten).filter (keyEq cfg.desc k)))
    have h4 := h1.trans h3
    simpa [List.filter_append, List.append_assoc] using h4

/-- C4: MergeSortingTransform's merge is stable: for every pair of emitted
rows whose sort keys compare equal under the SortDescription, their relative
order in the emitted output equals their relative order in the input, for
every placement of spill boundaries and every configuration, limit
included — the emitted rows of any key class form a subsequence of the
input's key class.  When no limit truncates the output, the emitted key
class is the whole input key class, in input order. -/
theorem claim_C4_merge_stability (cfg : MSConfig) (input : List Chunk) (k : Row) :
    (((mergeSortingTransform cfg input).flatten).filter (keyEq cfg.desc k) <+
        (input.flatten).filter (keyEq cfg.desc k)) ∧
      (cfg.limit = 0 →
        ((mergeSortingTransform cfg input).flatten).filter (keyEq cfg.desc k) =
          (input.flatten).filter (keyEq cfg.desc k)) := by
  have hker : (mergeSortingTransform cfg input).flatten = limitedRows cfg input :=
    chunkify_flatten _ _
  constructor
  · rw [hker]
    unfold limitedRows
    split
    · rw [mergedRows_filter_stateRows]
      exact accumulate_stateRows_filter_sublist cfg input k
    · have h1 := (List.take_sublist cfg.limit (mergedRows cfg input)).filter
        (keyEq cfg.desc k)
      rw [mergedRows_filter_stateRows] at h1
      exact h1.trans (accumulate_stateRows_filter_sublist cfg input k)
  · intro h0
    rw [hker]
    unfold limitedRows
    rw [if_pos h0, mergedRows_filter_stateRows]
    exact accumulate_stateRows_filter h0 input k

theorem claim_C4_merge_stability_witness :
    (((mergeSortingTransform ⟨[(0, 1)], 2, 1, 10, 8⟩
          [[[1, 10], [1, 20]], [[0, 30]]]).flatten).filter
          (keyEq [(0, 1)] [1, 99]) <+
        ([[[1, 10], [1, 20]], [[0, 30]]].flatten).filter (keyEq [(0, 1)] [1, 99])) ∧
      (⟨[(0, 1)], 2, 0, 10, 8⟩ : MSConfig).limit = 0 ∧
      ((mergeSortingTransform ⟨[(0, 1)], 2, 0, 10, 8⟩
          [[[1, 10], [1, 20]], [[1, 30], [0, 40]]]).flatten).filter
          (keyEq [(0, 1)] [1, 99]) =
        ([[[1, 10], [1, 20]], [[1, 30], [0, 40]]].flatten).filter
          (keyEq [(0, 1)] [1, 99]) :=
  ⟨(claim_C4_merge_stability ⟨[(0, 1)], 2, 1, 10, 8⟩
      [[[1, 10], [1, 20]], [[0, 30]]] [1, 99]).1,
    rfl,
    (claim_C4_merge_stability ⟨[(0, 1)], 2, 0, 10, 8⟩
      [[[1, 10], [1, 20]], [[1, 30], [0, 40]]] [1, 99]).2 rfl⟩

/-! ## Claim C10: NumbersSource

Translated from the source,
`src/dbms/src/Processors/tests/processors_test_merge_sorting_transform.cpp`
lines 44-59 (`NumbersSource::generate`).  `current_number`, `count`,
`block_size` and the loop variable `number` are `UInt64`, so
`number += count` wraps modulo 2^64. -/

/-- The UInt64 modulus reduction: all NumbersSource arithmetic wraps
modulo 2^64. -/
def wrap64 (n : Nat) : Nat := n % 2 ^ 64

/-- The row-generation loop of `NumbersSource::generate`:
`for (UInt64 i = 0; i < block_size; ++i, number += count) insert(number)`.
The first argument counts the remaining iterations; `number += count` is
UInt64 addition, wrapping modulo 2^64. -/
def genRows (count : Nat) : Nat → Nat → List Nat
  | 0, _ => []
  | i + 1, number => number :: genRows count i (wrap64 (number + count))

/-- One call of `NumbersSource::generate`: when `current_number == count`
the terminating empty Chunk (`none`) is returned; otherwise a proper chunk
of `block_size` rows starting at `current_number` (which is then
post-incremented by the caller state). -/
def numbersGenerate (count blockSize current : Nat) : Option (List Nat) :=
  if current = count then none
  else some (genRows count blockSize current)

/-- The stream of proper chunks produced by driving `generate` from
`current_number = 0` until it returns the empty chunk; from state `current`
exactly `count - current` more proper chunks arrive, which bounds the
recursion. -/
def numbersStream (count blockSize : Nat) : List (List Nat) :=
  go count 0
where
  go : Nat → Nat → List (List Nat)
    | 0, _ => []
    | r + 1, current =>
      match numbersGenerate count blockSize current with
      | none => []
      | some c => c :: go r (current + 1)

theorem wrap64_lt (n : Nat) : wrap64 n < 2 ^ 64 :=
  Nat.mod_lt _ (by norm_num)

theorem genRows_length (c b : Nat) : ∀ n : Nat, (genRows c b n).length = b := by
  induction b with
  | zero => intro n; rfl
  | succ b ih =>
    intro n
    show (n :: genRows c b (wrap64 (n + c))).length = b + 1
    rw [List.length_cons, ih]

theorem genRows_eq (c b : Nat) : ∀ n : Nat, n < 2 ^ 64 →
    genRows c b n = (List.range b).map (fun j => wrap64 (n + j * c)) := by
  induction b with
  | zero => intro n _; rfl
  | succ b ih =>
    intro n hn
    show n :: genRows c b (wrap64 (n + c)) = _
    rw [ih (wrap64 (n + c)) (wrap64_lt _), List.range_succ_eq_map]
    simp only [List.map_cons, List.map_map]
    refine congrArg₂ List.cons ?_ ?_
    · show n = wrap64 (n + 0 * c)
      unfold wrap64
      rw [Nat.zero_mul, Nat.add_zero, Nat.mod_eq_of_lt hn]
    · apply List.map_congr_left
      intro j hj
      simp only [Function.comp_apply]
      unfold wrap64
      rw [Nat.mod_add_mod]
      congr 1
      simp only [Nat.succ_mul]
      omega

theorem numbersStream_go_eq (c b : Nat) : ∀ (r current : Nat), current + r = c →
    numbersStream.go c b r current =
      (List.range r).map (fun j => genRows c b (current + j)) := by
  intro r
  induction r with
  | zero => intro current h; rfl
  | succ r ih =>
    intro current h
    have hne : ¬ current = c := by omega
    show (match numbersGenerate c b current with
          | none => []
          | some ch => ch :: numbersStream.go c b r (current + 1)) = _
    rw [numbersGenerate, if_neg hne]
    rw [ih (current + 1) (by omega), List.range_succ_eq_map]
    simp only [List.map_cons, List.map_map]
    refine congrArg₂ List.cons (by rw [Nat.add_zero]) ?_
    apply List.map_congr_left
    intro j hj
    simp only [Function.comp_apply]
    exact congrArg (genRows c b) (by omega)

theorem numbersStream_eq_genRows (c b : Nat) :
    numbersStream c b = (List.range c).map (fun k => genRows c b k) := by
  unfold numbersStream
  rw [numbersStream_go_eq c b c 0 (by omega)]
  apply List.map_congr_left
  intro k hk
  simp

theorem numbersStream_eq {c : Nat} (b : Nat) (hc : c ≤ 2 ^ 64) :
    numbersStream c b =
      (List.range c).map
        (fun k => (List.range b).map (fun j => wrap64 (k + j * c))) := by
  rw [numbersStream_eq_genRows]
  apply List.map_congr_left
  intro k hk
  exact genRows_eq c b k (lt_of_lt_of_le (List.mem_range.mp hk) hc)

/-- When every emitted value stays below 2^64, the wrap-around is
invisible and the chunk values are the plain strided naturals. -/
theorem numbersChunk_no_wrap {c b : Nat} (hle : c * b ≤ 2 ^ 64) {k : Nat}
    (hk : k < c) :
    (List.range b).map (fun j => wrap64 (k + j * c)) =
      (List.range b).map (fun j => k + j * c) := by
  apply List.map_congr_left
  intro j hj
  have hjb := List.mem_range.mp hj
  unfold wrap64
  apply Nat.mod_eq_of_lt
  have h1 : (j + 1) * c ≤ b * c := Nat.mul_le_mul_right c (by omega)
  have h2 : b * c = c * b := Nat.mul_comm b c
  simp only [Nat.succ_mul] at h1
  omega

theorem numbersStream_eq_no_wrap {c b : Nat} (hc : c ≤ 2 ^ 64)
    (hle : c * b ≤ 2 ^ 64) :
    numbersStream c b =
      (List.range c).map (fun k => (List.range b).map (fun j => k + j * c)) := by
  rw [numbersStream_eq b hc]
  apply List.map_congr_left
  intro k hk
  exact numbersChunk_no_wrap hle (List.mem_range.mp hk)

theorem numbersChunk_nodup {c : Nat} (hc : 0 < c) (k b : Nat) :
    ((List.range b).map (fun j => k + j * c)).Nodup := by
  refine List.Nodup.map ?_ (List.nodup_range b)
  intro a a' h
  have h' : k + a * c = k + a' * c := h
  have : a * c = a' * c := by omega
  exact Nat.eq_of_mul_eq_mul_right hc this

theorem numbersChunk_mod {c : Nat} (k : Nat) (hk : k < c) {b v : Nat}
    (hv : v ∈ (List.range b).map (fun j => k + j * c)) : v % c = k := by
  rcases List.mem_map.mp hv with ⟨j, hj, rfl⟩
  rw [Nat.add_mul_mod_self_right]
  exact Nat.mod_eq_of_lt hk

theorem numbersStream_flatten_nodup {c b : Nat} (hc : c ≤ 2 ^ 64)
    (hle : c * b ≤ 2 ^ 64) : (numbersStream c b).flatten.Nodup := by
  rcases Nat.eq_zero_or_pos c with hzero | hpos
  · subst hzero
    simp [numbersStream_eq_no_wrap hc hle]
  · rw [numbersStream_eq_no_wrap hc hle, List.nodup_flatten]
    constructor
    · intro l hl
      rcases List.mem_map.mp hl with ⟨k, hk, rfl⟩
      exact numbersChunk_nodup hpos k b
    · rw [List.pairwise_map]
      have hlt := List.pairwise_lt_range c
      refine List.Pairwise.imp_of_mem ?_ hlt
      intro k k' hk hk' hkk' v hv hv'
      have h1 : v % c = k := numbersChunk_mod k (List.mem_range.mp hk) hv
      have h2 : v % c = k' := numbersChunk_mod k' (List.mem_range.mp hk') hv'
      omega

theorem numbersStream_mem_iff {c b v : Nat} (hc : c ≤ 2 ^ 64)
    (hle : c * b ≤ 2 ^ 64) :
    v ∈ (numbersStream c b).flatten ↔ v < c * b := by
  rw [numbersStream_eq_no_wrap hc hle]
  constructor
  · intro hv
    rcases List.mem_flatten.mp hv with ⟨l, hl, hvl⟩
    rcases List.mem_map.mp hl with ⟨k, hk, rfl⟩
    rcases List.mem_map.mp hvl with ⟨j, hj, rfl⟩
    have hkc := List.mem_range.mp hk
    have hjb := List.mem_range.mp hj
    have h1 : (j + 1) * c ≤ b * c := Nat.mul_le_mul_right c (by omega)
    have h2 : b * c = c * b := Nat.mul_comm b c
    simp only [Nat.succ_mul] at h1
    omega
  · intro hv
    have hcpos : 0 < c := by
      rcases Nat.eq_zero_or_pos c with h | h
      · subst h; simp at hv
      · exact h
    refine List.mem_flatten.mpr
      ⟨(List.range b).map (fun j => v % c + j * c), ?_, ?_⟩
    · exact List.mem_map.mpr ⟨v % c, List.mem_range.mpr (Nat.mod_lt v hcpos), rfl⟩
    · refine List.mem_map.mpr ⟨v / c, List.mem_range.mpr ?_, ?_⟩
      · rw [Nat.div_lt_iff_lt_mul hcpos]
        have h2 : b * c = c * b := Nat.mul_comm b c
        omega
      · have h3 := Nat.mod_add_div v c
        have h4 : c * (v / c) = (v / c) * c := Nat.mul_comm c (v / c)
        omega

theorem numbersStream_perm {c b : Nat} (hc : c ≤ 2 ^ 64)
    (hle : c * b ≤ 2 ^ 64) :
    (numbersStream c b).flatten ~ List.range (c * b) := by
  rw [List.perm_ext_iff_of_nodup (numbersStream_flatten_nodup hc hle)
    (List.nodup_range _)]
  intro v
  rw [numbersStream_mem_iff hc hle, List.mem_range]

/-- Counterexample to C10 as stated: the UInt64 arithmetic of
`NumbersSource::generate` wraps, so at the in-range parameters
count = 2^63 + 1, block_size = 2 the chunk with index 2^63 - 1 re-emits the
value 0 (its second row is (2^63 - 1) + (2^63 + 1) = 2^64, which wraps to
0, already emitted by chunk 0), and the flattened stream is not a
permutation of 0 .. count*block_size - 1. -/
theorem claim_C10_numbers_source_counterexample :
    ¬ ((numbersStream (2 ^ 63 + 1) 2).flatten ~
        List.range ((2 ^ 63 + 1) * 2)) := by
  intro hperm
  have hnodup : (numbersStream (2 ^ 63 + 1) 2).flatten.Nodup :=
    hperm.nodup_iff.mpr (List.nodup_range _)
  rw [numbersStream_eq_genRows, List.nodup_flatten] at hnodup
  obtain ⟨_, hdisj⟩ := hnodup
  rw [List.pairwise_map, List.pairwise_iff_get] at hdisj
  have h0lt : (0 : Nat) < (List.range (2 ^ 63 + 1)).length := by
    rw [List.length_range]
    norm_num
  have hjlt : 2 ^ 63 - 1 < (List.range (2 ^ 63 + 1)).length := by
    rw [List.length_range]
    norm_num
  have hd := hdisj ⟨0, h0lt⟩ ⟨2 ^ 63 - 1, hjlt⟩
    (Fin.mk_lt_mk.mpr (by norm_num))
  rw [List.get_range, List.get_range] at hd
  have hmem0 : (0 : Nat) ∈ genRows (2 ^ 63 + 1) 2 0 := by
    show (0 : Nat) ∈ [0, wrap64 (0 + (2 ^ 63 + 1))]
    simp
  have hmem1 : (0 : Nat) ∈ genRows (2 ^ 63 + 1) 2 (2 ^ 63 - 1) := by
    have hw : wrap64 (2 ^ 63 - 1 + (2 ^ 63 + 1)) = 0 := by
      have h1 : 2 ^ 63 - 1 + (2 ^ 63 + 1) = 2 ^ 64 := by norm_num
      rw [wrap64, h1, Nat.mod_self]
    show (0 : Nat) ∈ [2 ^ 63 - 1, wrap64 (2 ^ 63 - 1 + (2 ^ 63 + 1))]
    rw [hw]
    simp
  exact hd hmem0 hmem1

/-- C10 (amended for UInt64 wrap-around): NumbersSource constructed with
parameters (count, block_size, _), with count in the UInt64 range,
generates exactly `count` proper (non-sentinel) Chunks of exactly
`block_size` rows each before returning the empty Chunk; chunk k (0-based)
contains the strided values (k + j*count) mod 2^64 for
j = 0 .. block_size-1 in that order (so the overall stream is not globally
sorted when count > 1); and provided count * block_size ≤ 2^64 — so no
emitted value wraps — the multiset of values across all chunks is exactly
the integers 0 .. count*block_size - 1, each occurring once. -/
theorem claim_C10_numbers_source (count blockSize : Nat)
    (hcount : count < 2 ^ 64) :
    (numbersStream count blockSize).length = count ∧
    (∀ ch ∈ numbersStream count blockSize, ch.length = blockSize) ∧
    numbersGenerate count blockSize count = none ∧
    (∀ k, k < count → numbersGenerate count blockSize k =
      some ((List.range blockSize).map (fun j => wrap64 (k + j * count)))) ∧
    numbersStream count blockSize =
      (List.range count).map
        (fun k => (List.range blockSize).map (fun j => wrap64 (k + j * count))) ∧
    (count * blockSize ≤ 2 ^ 64 →
      (numbersStream count blockSize).flatten ~
        List.range (count * blockSize)) := by
  refine ⟨?_, ?_, ?_, ?_, numbersStream_eq blockSize (le_of_lt hcount), ?_⟩
  · rw [numbersStream_eq_genRows]
    simp
  · intro ch hch
    rw [numbersStream_eq_genRows] at hch
    rcases List.mem_map.mp hch with ⟨k, hk, rfl⟩
    exact genRows_length count blockSize k
  · unfold numbersGenerate
    simp
  · intro k hk
    unfold numbersGenerate
    rw [if_neg (by omega), genRows_eq count blockSize k (lt_trans hk hcount)]
  · intro hle
    exact numbersStream_perm (le_of_lt hcount) hle

theorem claim_C10_numbers_source_witness :
    numbersGenerate 2 3 0 = some [0, 2, 4] ∧
      numbersGenerate 2 3 2 = none ∧
      (numbersStream 2 3).flatten ~ List.range 6 :=
  ⟨((claim_C10_numbers_source 2 3 (by norm_num)).2.2.2.1 0 (by decide)).trans
      (by decide),
    (claim_C10_numbers_source 2 3 (by norm_num)).2.2.1,
    (claim_C10_numbers_source 2 3 (by norm_num)).2.2.2.2.2 (by norm_num)⟩

/-! ## Claim C8: the port contract

Modelled from the spec (§4.1): the port implementation is not in this
source tree.  A connected port pair shares one single-chunk slot plus the
end-of-stream flag. -/

/-- The single-slot state of a connected port pair. -/
structure Slot where
  data : Option Chunk
  closed : Bool
deriving DecidableEq

inductive PortError
  | pushToFull
  | pullFromEmpty
deriving DecidableEq

/-- `push` on the output side: fails whenever the input side still holds an
unconsumed chunk. -/
def Slot.push (s : Slot) (c : Chunk) : Except PortError Slot :=
  match s.data with
  | some _ => .error .pushToFull
  | none => .ok { s with data := some c }

/-- `pull` on the input side: returns the buffered chunk and empties the
slot when one is present, fails when the slot is empty. -/
def Slot.pull (s : Slot) : Except PortError (Chunk × Slot) :=
  match s.data with
  | some c => .ok (c, { s with data := none })
  | none => .error .pullFromEmpty

/-- Number of chunks residing in the port. -/
def Slot.occupancy (s : Slot) : Nat :=
  match s.data with
  | some _ => 1
  | none => 0

/-- C8: On a connected port pair, `push(chunk)` fails whenever the input
side still holds an unconsumed chunk and succeeds into an empty slot;
`pull()` returns the buffered chunk and empties the slot when one is
present and fails when the slot is empty; consequently at most one Chunk
resides in a port at any time. -/
theorem claim_C8_port_contract (s : Slot) (c : Chunk) :
    (s.data ≠ none → s.push c = .error .pushToFull) ∧
    (s.data = none → s.push c = .ok { s with data := some c }) ∧
    (∀ d, s.data = some d → s.pull = .ok (d, { s with data := none })) ∧
    (s.data = none → s.pull = .error .pullFromEmpty) ∧
    s.occupancy ≤ 1 := by
  obtain ⟨d, cl⟩ := s
  cases d <;> simp [Slot.push, Slot.pull, Slot.occupancy]

theorem claim_C8_port_contract_witness :
    (Slot.mk (some [[1]]) false).push [[2]] = .error .pushToFull ∧
      (Slot.mk none false).pull = .error .pullFromEmpty :=
  ⟨(claim_C8_port_contract ⟨some [[1]], false⟩ [[2]]).1 (by simp),
    (claim_C8_port_contract ⟨none, false⟩ [[2]]).2.2.2.1 rfl⟩

/-! ## Claim C5: spill-file cleanup

Modelled from the spec (§4.4 failure semantics, §7, §9 scoped spill-file
lifetime): every spilled Run owns one temporary file through a scoped
resource; dropping a Run deletes its file; shutdown — triggered by
success, cancellation or error — releases every Run through the same
destruction path. -/

/-- How an execution of the transform terminated. -/
inductive ExitKind
  | success
  | cancelled
  | storageError

/-- Execution state of one transform instance with its live temporary
spill-file count. -/
structure MSExec where
  st : AccState
  files : Nat

def initExec : MSExec := ⟨initAcc, 0⟩

/-- Accumulate one chunk, tracking file creation by the spill rule.  When
the spill write fails (`ok = false`), the partially written file is deleted
before the StorageError surfaces and no Run is recorded. -/
def execConsume (cfg : MSConfig) (e : MSExec) (c : Chunk) (ok : Bool) : MSExec :=
  if spillCond cfg (remergeStep cfg (appendChunk e.st c)) then
    if ok then ⟨spill cfg (remergeStep cfg (appendChunk e.st c)), e.files + 1⟩
    else ⟨remergeStep cfg (appendChunk e.st c), e.files⟩
  else ⟨remergeStep cfg (appendChunk e.st c), e.files⟩

/-- Dropping the Runs one by one: a spilled Run's backing file is deleted
with it. -/
def releaseRuns (runs : List Run) (files : Nat) : Nat :=
  match runs with
  | [] => files
  | r :: rs => releaseRuns rs (if r.spilled then files - 1 else files)

/-- Shutdown on any exit path releases every Run through the scoped
resource, whatever the exit kind. -/
def shutdown (e : MSExec) (_k : ExitKind) : MSExec :=
  ⟨⟨[], 0, []⟩, releaseRuns e.st.runs e.files⟩

/-- A full execution: accumulate the given chunks (each with the success
flag of its potential spill write), then terminate in the given way. -/
def runTransform (cfg : MSConfig) (steps : List (Chunk × Bool))
    (k : ExitKind) : MSExec :=
  shutdown (steps.foldl (fun e s => execConsume cfg e s.1 s.2) initExec) k

def spilledCount (runs : List Run) : Nat :=
  (runs.filter (fun r => r.spilled)).length

theorem releaseRuns_eq (runs : List Run) (files : Nat) :
    releaseRuns runs files = files - spilledCount runs := by
  induction runs generalizing files with
  | nil => simp [releaseRuns, spilledCount]
  | cons r rs ih =>
    unfold releaseRuns spilledCount
    rw [ih]
    unfold spilledCount
    rw [List.filter_cons]
    cases hr : r.spilled
    · simp
    · simp
      omega

theorem remergeStep_runs (cfg : MSConfig) (st : AccState) :
    (remergeStep cfg st).runs = st.runs := by
  unfold remergeStep remerge
  split <;> rfl

theorem execConsume_inv {cfg : MSConfig} {e : MSExec}
    (h : e.files = spilledCount e.st.runs) (c : Chunk) (ok : Bool) :
    (execConsume cfg e c ok).files =
      spilledCount (execConsume cfg e c ok).st.runs := by
  unfold execConsume
  have hr : (remergeStep cfg (appendChunk e.st c)).runs = e.st.runs := by
    rw [remergeStep_runs]
    rfl
  split
  · split
    · simp only [spill, spilledCount, hr, List.filter_append]
      rw [List.length_append]
      simp only [List.filter_cons, List.filter_nil]
      rw [h]
      simp [spilledCount]
    · simp [hr, h]
  · simp [hr, h]

/-- C5: After any terminated execution of a pipeline containing
MergeSortingTransform — normal completion, external cancellation, or a
storage error during spilling — the set of temporary spill files remaining
on disk is empty. -/
theorem claim_C5_spill_cleanup (cfg : MSConfig) (steps : List (Chunk × Bool))
    (k : ExitKind) : (runTransform cfg steps k).files = 0 := by
  have hinv : ∀ (ss : List (Chunk × Bool)) (e : MSExec),
      e.files = spilledCount e.st.runs →
      (ss.foldl (fun e s => execConsume cfg e s.1 s.2) e).files =
        spilledCount (ss.foldl (fun e s => execConsume cfg e s.1 s.2) e).st.runs := by
    intro ss
    induction ss with
    | nil => intro e h; exact h
    | cons s ss ih => intro e h; exact ih _ (execConsume_inv h s.1 s.2)
  unfold runTransform shutdown
  simp only
  rw [releaseRuns_eq, hinv steps initExec (by simp [initExec, initAcc, spilledCount])]
  omega

/-! ## Claims C6 and C7: the pipeline executor

Modelled from the spec (§4.2, §4.3, §5): the executor implementation is
not in this source tree.  A pipeline is a Source followed by a chain of
deterministic single-input single-output transforms and a Sink, linked by
single-slot ports carrying chunks and the end-of-stream flag.  Execution is
a nondeterministic interleaving of atomic single-processor steps (`work()`
invocations); the per-processor mutual exclusion of the pooled executor
makes this the faithful concurrency model.  Single-thread execution is the
particular interleaving that always picks the unique runnable processor in
a fixed order. -/

/-- A deterministic transform, represented extensionally: `emitC log` is
the chunk (if any) pushed right after consuming the chunk sequence `log`
(last element = newly consumed chunk), and `flush log` is the sequence of
chunks emitted during finalization after end-of-stream.
`MergeSortingTransform` fits this shape: `emitC` is constantly `none`
(accumulation produces no output) and `flush` is the merged, chunkified
output; a simple per-chunk transform has `flush _ = []`. -/
structure Transducer where
  emitC : List Chunk → Option Chunk
  flush : List Chunk → List Chunk

/-- Phase of one transform processor: consuming input (with the log of
chunks consumed so far), emitting its finalization output, or finished. -/
inductive TPhase
  | running (log : List Chunk)
  | flushing (pending : List Chunk)
  | done

/-- A pipeline prefix: the source, or a deeper prefix plus the input slot
and processor of one more transform.  The output port of the topmost
processor lives in the enclosing layer (or in `Sys` for the last one). -/
inductive Pipe
  | source (remaining : List Chunk) (closed : Bool)
  | cons (up : Pipe) (slot : Slot) (t : Transducer) (ph : TPhase)

/-- The effect a processor step has on its output port. -/
inductive Eff
  | push (c : Chunk)
  | close

/-- How an output-port effect updates the port slot: a push requires the
slot empty and open, a close sets the end-of-stream flag. -/
inductive SlotStep : Slot → Eff → Slot → Prop
  | push (c : Chunk) : SlotStep ⟨none, false⟩ (.push c) ⟨some c, false⟩
  | close (d : Option Chunk) : SlotStep ⟨d, false⟩ .close ⟨d, true⟩

/-- One atomic step of one processor inside a pipeline prefix, labelled
with the effect (if any) it emits on the prefix's top output port. -/
inductive PStep : Pipe → Option Eff → Pipe → Prop
  | srcPush (c : Chunk) (r : List Chunk) :
      PStep (.source (c :: r) false) (some (.push c)) (.source r false)
  | srcClose :
      PStep (.source [] false) (some .close) (.source [] true)
  | inner {up up' : Pipe} {e : Eff} {slot slot' : Slot} (t : Transducer)
      (ph : TPhase) (hup : PStep up (some e) up') (hs : SlotStep slot e slot') :
      PStep (.cons up slot t ph) none (.cons up' slot' t ph)
  | innerSilent {up up' : Pipe} (slot : Slot) (t : Transducer) (ph : TPhase)
      (hup : PStep up none up') :
      PStep (.cons up slot t ph) none (.cons up' slot t ph)
  | consume {t : Transducer} {log : List Chunk} (up : Pipe) (cl : Bool)
      (c : Chunk) :
      PStep (.cons up ⟨some c, cl⟩ t (.running log))
        ((t.emitC (log ++ [c])).map Eff.push)
        (.cons up ⟨none, cl⟩ t (.running (log ++ [c])))
  | startFlush {t : Transducer} {log : List Chunk} (up : Pipe) :
      PStep (.cons up ⟨none, true⟩ t (.running log)) none
        (.cons up ⟨none, true⟩ t (.flushing (t.flush log)))
  | emit {t : Transducer} (up : Pipe) (slot : Slot) (c : Chunk)
      (ps : List Chunk) :
      PStep (.cons up slot t (.flushing (c :: ps))) (some (.push c))
        (.cons up slot t (.flushing ps))
  | closeOut {t : Transducer} (up : Pipe) (slot : Slot) :
      PStep (.cons up slot t (.flushing [])) (some .close)
        (.cons up slot t .done)

/-- The whole system: the transform chain, the port feeding the sink, the
chunks delivered to the sink in order, and the sink's finished flag. -/
structure Sys where
  pipe : Pipe
  out : Slot
  sink : List Chunk
  sinkDone : Bool

/-- One atomic step of the whole pipeline: a step of some processor in the
chain (applying its effect to the sink-facing port when it has one), the
sink consuming a chunk, or the sink observing end-of-stream. -/
inductive SysStep : Sys → Sys → Prop
  | pipeSilent {p p' : Pipe} (out : Slot) (sink : List Chunk) (sd : Bool)
      (h : PStep p none p') :
      SysStep ⟨p, out, sink, sd⟩ ⟨p', out, sink, sd⟩
  | pipeEff {p p' : Pipe} {e : Eff} {out out' : Slot} (sink : List Chunk)
      (sd : Bool) (h : PStep p (some e) p') (hs : SlotStep out e out') :
      SysStep ⟨p, out, sink, sd⟩ ⟨p', out', sink, sd⟩
  | sinkConsume {c : Chunk} {cl : Bool} (p : Pipe) (sink : List Chunk)
      (sd : Bool) :
      SysStep ⟨p, ⟨some c, cl⟩, sink, sd⟩ ⟨p, ⟨none, cl⟩, sink ++ [c], sd⟩
  | sinkFinish (p : Pipe) (sink : List Chunk) :
      SysStep ⟨p, ⟨none, true⟩, sink, false⟩ ⟨p, ⟨none, true⟩, sink, true⟩

/-- Wire up Source → transforms → Sink with empty open ports. -/
def buildPipe (ts : List Transducer) (src : List Chunk) : Pipe :=
  ts.foldl (fun p t => .cons p ⟨none, false⟩ t (.running [])) (.source src false)

def initSys (ts : List Transducer) (src : List Chunk) : Sys :=
  ⟨buildPipe ts src, ⟨none, false⟩, [], false⟩

/-- The chunks a transform will emit given its consumption log and its
future input stream: one optional chunk per consumed input, then the
flush. -/
def runT (t : Transducer) : List Chunk → List Chunk → List Chunk
  | log, [] => t.flush log
  | log, c :: cs => (t.emitC (log ++ [c])).toList ++ runT t (log ++ [c]) cs

/-- The chunks a transform will emit from a given phase on a given future
input stream (flushing and done phases arise only after end-of-stream, so
they ignore the stream). -/
def phaseOut (t : Transducer) : TPhase → List Chunk → List Chunk
  | .running log, ins => runT t log ins
  | .flushing ps, _ => ps
  | .done, _ => []

/-- The chunks a pipeline prefix will still emit from its top port. -/
def denoteP : Pipe → List Chunk
  | .source r closed => if closed then [] else r
  | .cons up slot t ph => phaseOut t ph (slot.data.toList ++ denoteP up)

/-- Whether the topmost processor of the prefix is finished. -/
def topDone : Pipe → Bool
  | .source _ closed => closed
  | .cons _ _ _ ph =>
    match ph with
    | .done => true
    | _ => false

/-- Structural invariant of reachable pipelines: each port's end-of-stream
flag mirrors its producer's finished status, and a flushing or finished
processor has a drained, closed input port. -/
def WFp : Pipe → Prop
  | .source _ _ => True
  | .cons up slot _ ph =>
      WFp up ∧ slot.closed = topDone up ∧
      (∀ ps, ph = .flushing ps → slot = ⟨none, true⟩) ∧
      (ph = .done → slot = ⟨none, true⟩)

/-- Every processor of the prefix is finished. -/
def AllDoneP : Pipe → Prop
  | .source _ closed => closed = true
  | .cons up _ _ ph => AllDoneP up ∧ ph = .done

/-- Every processor of the system, sink included, is Finished. -/
def allFinished (s : Sys) : Prop := AllDoneP s.pipe ∧ s.sinkDone = true

def WFs (s : Sys) : Prop :=
  WFp s.pipe ∧ s.out.closed = topDone s.pipe ∧
    (s.sinkDone = true → s.out = ⟨none, true⟩)

/-- All content that will ever have been delivered to the sink. -/
def denoteSys (s : Sys) : List Chunk :=
  s.sink ++ s.out.data.toList ++ denoteP s.pipe

def phaseWeight : TPhase → Nat
  | .running _ => 2
  | .flushing _ => 1
  | .done => 0

/-- Termination measure: remaining source work plus, per transform, its
future input and output volume and phase progress. -/
def measureP : Pipe → Nat
  | .source r closed => r.length + (if closed then 0 else 1)
  | .cons up slot t ph =>
      measureP up + (slot.data.toList ++ denoteP up).length +
        (phaseOut t ph (slot.data.toList ++ denoteP up)).length + phaseWeight ph

def measureS (s : Sys) : Nat :=
  measureP s.pipe + (s.out.data.toList ++ denoteP s.pipe).length +
    (if s.sinkDone then 0 else 1)

theorem topDone_denoteP {p : Pipe} (h : topDone p = true) : denoteP p = [] := by
  cases p with
  | source r closed =>
    simp only [topDone] at h
    simp [denoteP, h]
  | cons up slot t ph =>
    cases ph with
    | running log => simp [topDone] at h
    | flushing ps => simp [topDone] at h
    | done => rfl

/-- What a step's effect label says about the prefix before and after. -/
def effFacts (p p' : Pipe) : Option Eff → Prop
  | none => topDone p' = topDone p ∧ denoteP p' = denoteP p
  | some (.push c) => topDone p = false ∧ topDone p' = false ∧
      denoteP p = c :: denoteP p'
  | some .close => topDone p = false ∧ topDone p' = true ∧
      denoteP p = [] ∧ denoteP p' = []

/-- The workhorse: every processor step preserves the structural invariant,
strictly decreases the measure, and transforms the future output stream
exactly as its effect label says. -/
theorem pstep_facts {p : Pipe} {e : Option Eff} {p' : Pipe}
    (h : PStep p e p') : WFp p →
    WFp p' ∧ measureP p' < measureP p ∧ effFacts p p' e := by
  induction h with
  | srcPush c r =>
    intro _
    refine ⟨trivial, ?_, rfl, rfl, ?_⟩
    · simp [measureP]
    · simp [denoteP]
  | srcClose =>
    intro _
    refine ⟨trivial, ?_, rfl, rfl, ?_, ?_⟩
    · simp [measureP]
    · simp [denoteP]
    · simp [denoteP]
  | inner t ph hup hs ih =>
    rename_i up up' e slot slot'
    intro hwf
    obtain ⟨hwfup, hcl, hfl, hdn⟩ := hwf
    cases hs with
    | push c =>
      obtain ⟨hwfup', hm, htd, htd', hden⟩ := ih hwfup
      refine ⟨⟨hwfup', htd'.symm, ?_, ?_⟩, ?_, rfl, ?_⟩
      · intro ps hps
        have := hfl ps hps
        simp at this
      · intro hd
        have := hdn hd
        simp at this
      · simp only [measureP, Option.toList_some, Option.toList_none,
          List.nil_append, List.singleton_append]
        rw [hden]
        omega
      · simp only [denoteP, Option.toList_some, Option.toList_none,
          List.nil_append, List.singleton_append]
        rw [hden]
    | close d =>
      obtain ⟨hwfup', hm, htd, htd', hde, hde'⟩ := ih hwfup
      refine ⟨⟨hwfup', ?_, ?_, ?_⟩, ?_, rfl, ?_⟩
      · simp [htd']
      · intro ps hps
        have := hfl ps hps
        simp at this
      · intro hd
        have := hdn hd
        simp at this
      · simp only [measureP]
        rw [hde, hde']
        omega
      · simp only [denoteP]
        rw [hde, hde']
  | innerSilent slot t ph hup ih =>
    rename_i up up'
    intro hwf
    obtain ⟨hwfup, hcl, hfl, hdn⟩ := hwf
    obtain ⟨hwfup', hm, htd, hden⟩ := ih hwfup
    refine ⟨⟨hwfup', by rw [htd]; exact hcl, hfl, hdn⟩, ?_, rfl, ?_⟩
    · simp only [measureP]
      rw [hden]
      omega
    · simp only [denoteP]
      rw [hden]
  | consume up cl c =>
    intro hwf
    obtain ⟨hwfup, hcl, hfl, hdn⟩ := hwf
    rename_i t log
    have hwf' : WFp (.cons up ⟨none, cl⟩ t (.running (log ++ [c]))) := by
      refine ⟨hwfup, hcl, ?_, ?_⟩
      · intro ps hps
        exact TPhase.noConfusion hps
      · intro hd
        exact TPhase.noConfusion hd
    rcases ho : t.emitC (log ++ [c]) with _ | o
    · refine ⟨hwf', ?_, rfl, ?_⟩
      · simp only [measureP, denoteP, phaseOut, Option.toList_some,
          Option.toList_none, List.nil_append, List.singleton_append, phaseWeight]
        simp only [runT, ho, Option.toList_none, List.nil_append, List.length_cons]
        omega
      · simp only [denoteP, phaseOut, Option.toList_some, Option.toList_none,
          List.nil_append, List.singleton_append]
        simp only [runT, ho, Option.toList_none, List.nil_append]
    · refine ⟨hwf', ?_, rfl, rfl, ?_⟩
      · simp only [measureP, denoteP, phaseOut, Option.toList_some,
          Option.toList_none, List.nil_append, List.singleton_append, phaseWeight]
        simp only [runT, ho, Option.toList_some, List.length_append, List.length_cons,
          List.singleton_append]
        omega
      · simp only [denoteP, phaseOut, Option.toList_some, Option.toList_none,
          List.nil_append, List.singleton_append]
        simp only [runT, ho, Option.toList_some, List.singleton_append]
  | startFlush up =>
    intro hwf
    obtain ⟨hwfup, hcl, hfl, hdn⟩ := hwf
    rename_i t log
    have hde : denoteP up = [] := topDone_denoteP hcl.symm
    refine ⟨⟨hwfup, hcl, ?_, ?_⟩, ?_, rfl, ?_⟩
    · intro ps hps
      rfl
    · intro hd
      exact TPhase.noConfusion hd
    · simp [measureP, denoteP, phaseOut, phaseWeight, hde, runT]
    · simp [denoteP, phaseOut, hde, runT]
  | emit up slot c ps =>
    intro hwf
    obtain ⟨hwfup, hcl, hfl, hdn⟩ := hwf
    have hslot := hfl (c :: ps) rfl
    refine ⟨⟨hwfup, hcl, ?_, ?_⟩, ?_, rfl, rfl, rfl⟩
    · intro ps' hps'
      exact hslot
    · intro hd
      exact TPhase.noConfusion hd
    · simp only [measureP, denoteP, phaseOut, phaseWeight, List.length_cons]
      omega
  | closeOut up slot =>
    intro hwf
    obtain ⟨hwfup, hcl, hfl, hdn⟩ := hwf
    have hslot := hfl [] rfl
    refine ⟨⟨hwfup, hcl, ?_, ?_⟩, ?_, rfl, rfl, rfl, rfl⟩
    · intro ps' hps'
      exact TPhase.noConfusion hps'
    · intro hd
      exact hslot
    · simp [measureP, denoteP, phaseOut, phaseWeight]

theorem allDoneP_topDone {p : Pipe} (h : AllDoneP p) : topDone p = true := by
  cases p with
  | source r closed => exact h
  | cons up slot t ph => rw [h.2]; rfl

theorem wfp_topDone_allDone {p : Pipe} (hwf : WFp p) (h : topDone p = true) :
    AllDoneP p := by
  induction p with
  | source r closed => exact h
  | cons up slot t ph ih =>
    cases ph with
    | running log => simp [topDone] at h
    | flushing ps => simp [topDone] at h
    | done =>
      obtain ⟨hwfup, hcl, hfl, hdn⟩ := hwf
      have hslot := hdn rfl
      refine ⟨ih hwfup ?_, rfl⟩
      rw [← hcl, hslot]

theorem sysStep_facts {s s' : Sys} (h : SysStep s s') (hwf : WFs s) :
    WFs s' ∧ measureS s' < measureS s ∧ denoteSys s' = denoteSys s := by
  obtain ⟨hwfp, hcl, hsd⟩ := hwf
  cases h with
  | pipeSilent out sink sd hp =>
    obtain ⟨hwfp', hm, htd, hden⟩ := pstep_facts hp hwfp
    refine ⟨⟨hwfp', by rw [htd]; exact hcl, hsd⟩, ?_, ?_⟩
    · simp only [measureS]
      rw [hden]
      omega
    · simp only [denoteSys]
      rw [hden]
  | pipeEff sink sd hp hs =>
    obtain ⟨hwfp', hm, heff⟩ := pstep_facts hp hwfp
    cases hs with
    | push c =>
      obtain ⟨htd, htd', hden⟩ := heff
      refine ⟨⟨hwfp', htd'.symm, ?_⟩, ?_, ?_⟩
      · intro h
        have := hsd h
        simp at this
      · simp only [measureS, Option.toList_some, Option.toList_none,
          List.nil_append, List.singleton_append]
        rw [hden]
        omega
      · simp only [denoteSys, Option.toList_some, Option.toList_none]
        rw [hden]
        simp
    | close d =>
      obtain ⟨htd, htd', hde, hde'⟩ := heff
      refine ⟨⟨hwfp', by simp [htd'], ?_⟩, ?_, ?_⟩
      · intro h
        have := hsd h
        simp at this
      · simp only [measureS]
        rw [hde, hde']
        omega
      · simp only [denoteSys]
        rw [hde, hde']
  | sinkConsume p sink sd =>
    refine ⟨⟨hwfp, hcl, ?_⟩, ?_, ?_⟩
    · intro h
      have := hsd h
      simp at this
    · simp only [measureS, Option.toList_some, Option.toList_none,
        List.nil_append, List.singleton_append, List.length_cons]
      omega
    · simp only [denoteSys, Option.toList_some, Option.toList_none]
      simp
  | sinkFinish p sink =>
    refine ⟨⟨hwfp, hcl, fun _ => rfl⟩, ?_, rfl⟩
    simp [measureS]

theorem pipe_progress {p : Pipe} (hwf : WFp p) :
    AllDoneP p ∨ ∃ e p', PStep p e p' := by
  induction p with
  | source r closed =>
    cases closed with
    | true => exact Or.inl rfl
    | false =>
      cases r with
      | nil => exact Or.inr ⟨some .close, _, PStep.srcClose⟩
      | cons c rest => exact Or.inr ⟨some (.push c), _, PStep.srcPush c rest⟩
  | cons up slot t ph ih =>
    obtain ⟨d, cl⟩ := slot
    obtain ⟨hwfup, hcl, hfl, hdn⟩ := hwf
    cases ph with
    | done => exact Or.inl (wfp_topDone_allDone ⟨hwfup, hcl, hfl, hdn⟩ rfl)
    | flushing ps =>
      cases ps with
      | nil => exact Or.inr ⟨some .close, _, PStep.closeOut up _⟩
      | cons c ps' => exact Or.inr ⟨some (.push c), _, PStep.emit up _ c ps'⟩
    | running log =>
      cases d with
      | some c => exact Or.inr ⟨_, _, PStep.consume up cl c⟩
      | none =>
        cases cl with
        | true => exact Or.inr ⟨none, _, PStep.startFlush up⟩
        | false =>
          rcases ih hwfup with hall | ⟨e, up', hup⟩
          · have := allDoneP_topDone hall
            rw [← hcl] at this
            simp at this
          · cases e with
            | none => exact Or.inr ⟨none, _, PStep.innerSilent _ t _ hup⟩
            | some e' =>
              cases e' with
              | push c =>
                exact Or.inr ⟨none, _, PStep.inner t _ hup (SlotStep.push c)⟩
              | close =>
                exact Or.inr ⟨none, _, PStep.inner t _ hup (SlotStep.close none)⟩

theorem sys_progress {s : Sys} (hwf : WFs s) :
    allFinished s ∨ ∃ s', SysStep s s' := by
  obtain ⟨p, out, sink, sd⟩ := s
  obtain ⟨d, cl⟩ := out
  obtain ⟨hwfp, hcl, hsd⟩ := hwf
  rcases pipe_progress hwfp with hall | ⟨e, p', hp⟩
  · have hcl' : cl = true := by
      have := allDoneP_topDone hall
      rw [← this]
      exact hcl
    cases d with
    | some c => exact Or.inr ⟨_, SysStep.sinkConsume p sink sd⟩
    | none =>
      cases sd with
      | false =>
        subst hcl'
        exact Or.inr ⟨_, SysStep.sinkFinish p sink⟩
      | true => exact Or.inl ⟨hall, rfl⟩
  · cases e with
    | none => exact Or.inr ⟨_, SysStep.pipeSilent _ sink sd hp⟩
    | some e' =>
      cases e' with
      | push c =>
        cases d with
        | some c' => exact Or.inr ⟨_, SysStep.sinkConsume p sink sd⟩
        | none =>
          have htd : topDone p = false := ((pstep_facts hp hwfp).2.2).1
          have hcl2 : cl = topDone p := hcl
          have hcf : cl = false := hcl2.trans htd
          subst hcf
          exact Or.inr ⟨_, SysStep.pipeEff sink sd hp (SlotStep.push c)⟩
      | close =>
        have htd : topDone p = false := ((pstep_facts hp hwfp).2.2).1
        have hcl2 : cl = topDone p := hcl
        have hcf : cl = false := hcl2.trans htd
        subst hcf
        exact Or.inr ⟨_, SysStep.pipeEff sink sd hp (SlotStep.close d)⟩

theorem buildPipe_aux (ts : List Transducer) :
    ∀ p : Pipe, WFp p → topDone p = false →
      WFp (ts.foldl (fun p t => .cons p ⟨none, false⟩ t (.running [])) p) ∧
        topDone (ts.foldl (fun p t => .cons p ⟨none, false⟩ t (.running [])) p) =
          false := by
  induction ts with
  | nil => intro p h1 h2; exact ⟨h1, h2⟩
  | cons t ts ih =>
    intro p h1 h2
    apply ih
    · refine ⟨h1, h2.symm, ?_, ?_⟩
      · intro ps hps
        exact TPhase.noConfusion hps
      · intro hd
        exact TPhase.noConfusion hd
    · rfl

theorem init_wf (ts : List Transducer) (src : List Chunk) :
    WFs (initSys ts src) := by
  obtain ⟨h1, h2⟩ := buildPipe_aux ts (.source src false) trivial rfl
  exact ⟨h1, h2.symm, fun h => by simp [initSys] at h⟩

theorem reach_wf_denote {ts : List Transducer} {src : List Chunk} {s : Sys}
    (h : Relation.ReflTransGen SysStep (initSys ts src) s) :
    WFs s ∧ denoteSys s = denoteSys (initSys ts src) := by
  induction h with
  | refl => exact ⟨init_wf ts src, rfl⟩
  | tail hab hbc ih =>
    obtain ⟨hwf, hden⟩ := ih
    obtain ⟨hwf', hm, hden'⟩ := sysStep_facts hbc hwf
    exact ⟨hwf', hden'.trans hden⟩

theorem trace_bound : ∀ (k : Nat) (f : Nat → Sys), WFs (f 0) →
    (∀ i, i < k → SysStep (f i) (f (i + 1))) →
      measureS (f k) + k ≤ measureS (f 0) := by
  intro k
  induction k with
  | zero => intro f _ _; omega
  | succ k ih =>
    intro f hwf hstep
    have h0 : SysStep (f 0) (f 1) := hstep 0 (by omega)
    obtain ⟨hwf1, hm, _⟩ := sysStep_facts h0 hwf
    have hk := ih (fun i => f (i + 1)) hwf1 (fun i hi => hstep (i + 1) (by omega))
    simp only [Nat.zero_add] at hk
    omega

/-- C6: For every acyclic, fully connected wiring of
Source → Transform* → Sink in which the Source emits finitely many Chunks,
the executor's `execute()` terminates and on termination every processor in
the graph has status Finished: every step sequence is bounded by the
initial measure, and any reachable state from which no processor can step
has the source closed, every transform done, and the sink finished. -/
theorem claim_C6_graph_completion (ts : List Transducer) (src : List Chunk) :
    (∀ (k : Nat) (f : Nat → Sys), f 0 = initSys ts src →
        (∀ i, i < k → SysStep (f i) (f (i + 1))) →
        k ≤ measureS (initSys ts src)) ∧
      ∀ s : Sys, Relation.ReflTransGen SysStep (initSys ts src) s →
        (¬ ∃ s', SysStep s s') → allFinished s := by
  constructor
  · intro k f h0 hstep
    have hb := trace_bound k f (by rw [h0]; exact init_wf ts src) hstep
    rw [h0] at hb
    omega
  · intro s hreach hstuck
    obtain ⟨hwf, _⟩ := reach_wf_denote hreach
    rcases sys_progress hwf with h | h
    · exact h
    · exact absurd h hstuck

/-- C7: For every acyclic pipeline with finite Source output, any two
complete executions — arbitrary interleavings of atomic processor steps,
covering both the single-thread schedule and every pooled-worker
schedule — deliver identical final content to the Sink. -/
theorem claim_C7_schedule_independence (ts : List Transducer) (src : List Chunk)
    (s₁ s₂ : Sys)
    (h₁ : Relation.ReflTransGen SysStep (initSys ts src) s₁)
    (h₂ : Relation.ReflTransGen SysStep (initSys ts src) s₂)
    (hs₁ : ¬ ∃ s', SysStep s₁ s') (hs₂ : ¬ ∃ s', SysStep s₂ s') :
    s₁.sink = s₂.sink := by
  have key : ∀ s, Relation.ReflTransGen SysStep (initSys ts src) s →
      (¬ ∃ s', SysStep s s') → s.sink = denoteSys (initSys ts src) := by
    intro s hreach hstuck
    obtain ⟨hwf, hden⟩ := reach_wf_denote hreach
    have hfin : allFinished s := by
      rcases sys_progress hwf with h | h
      · exact h
      · exact absurd h hstuck
    obtain ⟨hall, hsd⟩ := hfin
    obtain ⟨hwfp, hcl, hsdw⟩ := hwf
    have hout := hsdw hsd
    have hdp : denoteP s.pipe = [] := topDone_denoteP (allDoneP_topDone hall)
    rw [← hden]
    simp [denoteSys, hout, hdp]
  rw [key s₁ h₁ hs₁, key s₂ h₂ hs₂]

/-- The trivial pipeline (no transforms, empty source) fully executed. -/
def stuckSysEmpty : Sys := ⟨.source [] true, ⟨none, true⟩, [], true⟩

theorem emptyReach :
    Relation.ReflTransGen SysStep (initSys [] []) stuckSysEmpty := by
  have h1 : SysStep (initSys [] []) ⟨.source [] true, ⟨none, true⟩, [], false⟩ :=
    SysStep.pipeEff [] false PStep.srcClose (SlotStep.close none)
  have h2 : SysStep ⟨.source [] true, ⟨none, true⟩, [], false⟩ stuckSysEmpty :=
    SysStep.sinkFinish _ []
  exact Relation.ReflTransGen.head h1 (Relation.ReflTransGen.single h2)

theorem emptyStuck : ¬ ∃ s', SysStep stuckSysEmpty s' := by
  rintro ⟨s', h⟩
  cases h with
  | pipeSilent out sink sd hp => cases hp
  | pipeEff sink sd hp hs => cases hp

theorem claim_C6_graph_completion_witness :
    0 ≤ measureS (initSys [] []) ∧ allFinished stuckSysEmpty :=
  ⟨(claim_C6_graph_completion [] []).1 0 (fun _ => initSys [] []) rfl
      (fun i hi => absurd hi (by omega)),
    (claim_C6_graph_completion [] []).2 stuckSysEmpty emptyReach emptyStuck⟩

theorem claim_C7_schedule_independence_witness :
    stuckSysEmpty.sink = stuckSysEmpty.sink :=
  claim_C7_schedule_independence [] [] stuckSysEmpty stuckSysEmpty
    emptyReach emptyReach emptyStuck emptyStuck

end ClickHouse
